import Mathlib

/-!
Verification development for the SkewCapture data pipeline.

The development shallowly embeds the pipeline pieces that the checked
properties are about:

* `src/skewcapture/options_fetcher.py` — `OptionsFetcher.parse_option_symbol`,
  the fixed-width option-ticker decoder, together with the underlying-symbol
  extraction (`df[..symbol..].str.split().str[0]`) used by the fetcher, and a
  spec-modelled fixed-width encoder (the repository itself has no encoder).
* `src/skewcapture/analyzer.py` — `Analyzer.compute_realized_vol`,
  `Analyzer.compute_momentum` and `Analyzer.merge_signals`, the pandas
  rolling-statistics and left-join enrichment code.
* `src/skewcapture/signal_logger.py` — `SignalLogger.append_to_log`.

Python strings are modelled as `List Char`; pandas data frames are modelled
as lists of typed rows, with the tabular operations (filter, sort, group-by,
merge) spelled out on lists following pandas semantics.  Python floats are
modelled exactly: by `ℚ` where the program only moves decimal values around
(option strikes), and by `ℝ` in the analyzer where logarithms and square
roots occur; the analyzer definitions are generic in a field `K` together
with the two transcendental operations they use, so that the structural
theorems hold for every interpretation and the value-level theorems
instantiate `K := ℝ`.
-/

namespace SkewCapture

/-! ### Python numeric-literal parsing

`int(s)` and `float(s)` acceptance is modelled for ASCII inputs: optional
surrounding whitespace, an optional sign, decimal digits with single
underscores allowed between digits, and for `float` an optional fractional
part and exponent.  IEEE special values (`inf`, `nan`) accepted by Python
floats lie outside the exact rational model and are treated as failures. -/

/-- ASCII whitespace as stripped by Python `str.strip()` (the characters
relevant to this data: space, tab, newline, carriage return). -/
def isPySpace (c : Char) : Bool :=
  c = ' ' ∨ c = '\t' ∨ c = '\n' ∨ c = '\r'

/-- Python `str.strip()`: drop leading and trailing whitespace. -/
def stripChars (l : List Char) : List Char :=
  ((l.dropWhile isPySpace).reverse.dropWhile isPySpace).reverse

/-- Numeric value of a digit character. -/
def digitVal (c : Char) : ℕ :=
  c.toNat - 48

/-- The digit character for a value below ten. -/
def dChar (d : ℕ) : Char :=
  Char.ofNat (48 + d)

/-- Consume further digits after an initial digit, allowing single
underscores between digits (Python numeric literals); returns the digit
values consumed and the unconsumed remainder. -/
def moreDigitsU : List Char → List ℕ × List Char
  | [] => ([], [])
  | c :: cs =>
    if c.isDigit then
      let p := moreDigitsU cs
      (digitVal c :: p.1, p.2)
    else if c = '_' then
      match cs with
      | c2 :: r2 =>
        if c2.isDigit then
          let p := moreDigitsU r2
          (digitVal c2 :: p.1, p.2)
        else ([], c :: cs)
      | [] => ([], [c])
    else ([], c :: cs)

/-- Consume a maximal digit run (single underscores allowed between digits)
from the front of the input; empty result when the input does not start
with a digit. -/
def takeDigitsU : List Char → List ℕ × List Char
  | [] => ([], [])
  | c :: cs =>
    if c.isDigit then
      let p := moreDigitsU cs
      (digitVal c :: p.1, p.2)
    else ([], c :: cs)

/-- Value of a most-significant-first digit list. -/
def natOfDigits (ds : List ℕ) : ℕ :=
  ds.foldl (fun a d => 10 * a + d) 0

/-- Digits of an unsigned integer literal; `none` when the character list is
not a complete run of digits (with legal underscores). -/
def pyUDigits (l : List Char) : Option ℕ :=
  let p := takeDigitsU l
  if p.1.isEmpty then none
  else if p.2.isEmpty then some (natOfDigits p.1) else none

/-- Python `int(s)` on an ASCII string: strip whitespace, optional sign,
then a digit run. -/
def pyInt (l : List Char) : Option ℤ :=
  match stripChars l with
  | [] => none
  | c :: r =>
    if c = '+' then (pyUDigits r).map (fun n => (n : ℤ))
    else if c = '-' then (pyUDigits r).map (fun n => -(n : ℤ))
    else (pyUDigits (c :: r)).map (fun n => (n : ℤ))

/-- Fractional combination used by the float parser: integer part `n` and
fraction digits `fs`. -/
def fracVal (n : ℕ) (fs : List ℕ) : ℚ :=
  (n : ℚ) + (natOfDigits fs : ℚ) / 10 ^ fs.length

/-- Optional exponent suffix of a Python float literal applied to the
mantissa `q`; `none` when the remainder is neither empty nor a well-formed
exponent. -/
def pyFloatExp (q : ℚ) (r : List Char) : Option ℚ :=
  match r with
  | [] => some q
  | c :: r2 =>
    if c = 'e' ∨ c = 'E' then
      let sr : ℤ × List Char :=
        match r2 with
        | c2 :: r3 =>
          if c2 = '+' then (1, r3)
          else if c2 = '-' then (-1, r3)
          else (1, c2 :: r3)
        | [] => (1, [])
      let p := takeDigitsU sr.2
      if p.1.isEmpty then none
      else if p.2.isEmpty then some (q * (10 : ℚ) ^ (sr.1 * (natOfDigits p.1 : ℤ))) else none
    else none

/-- Body of a Python float literal after sign removal: digits, optional
fractional part, optional exponent (`1.`, `.5`, `1e3` are all legal). -/
def pyFloatBody (u : List Char) : Option ℚ :=
  let p := takeDigitsU u
  if p.1.isEmpty then
    match p.2 with
    | c :: r2 =>
      if c = '.' then
        let f := takeDigitsU r2
        if f.1.isEmpty then none else pyFloatExp (fracVal 0 f.1) f.2
      else none
    | [] => none
  else
    match p.2 with
    | [] => some (natOfDigits p.1 : ℚ)
    | c :: r2 =>
      if c = '.' then
        let f := takeDigitsU r2
        pyFloatExp (fracVal (natOfDigits p.1) f.1) f.2
      else pyFloatExp ((natOfDigits p.1 : ℚ)) p.2

/-- Python `float(s)` on an ASCII string, in the exact rational model. -/
def pyFloat (l : List Char) : Option ℚ :=
  match stripChars l with
  | [] => none
  | c :: r =>
    if c = '+' then pyFloatBody r
    else if c = '-' then (pyFloatBody r).map (fun q => -q)
    else pyFloatBody (c :: r)

/-! ### Python calendar dates -/

/-- A decoded calendar date as produced by Python `datetime.date`. -/
structure SDate where
  year : ℤ
  month : ℤ
  day : ℤ
deriving DecidableEq, Repr

/-- Gregorian leap-year rule, as implemented by Python `datetime`. -/
def isLeapYear (y : ℤ) : Bool :=
  y % 4 = 0 ∧ (y % 100 ≠ 0 ∨ y % 400 = 0)

/-- Days in a month of a given year (0 for an out-of-range month). -/
def daysInMonth (y m : ℤ) : ℤ :=
  if m = 1 ∨ m = 3 ∨ m = 5 ∨ m = 7 ∨ m = 8 ∨ m = 10 ∨ m = 12 then 31
  else if m = 4 ∨ m = 6 ∨ m = 9 ∨ m = 11 then 30
  else if m = 2 then (if isLeapYear y then 29 else 28)
  else 0

/-- Argument validity of the Python `date(year, month, day)` constructor
(which raises `ValueError` on anything else). -/
def pyValidDate (y m d : ℤ) : Bool :=
  1 ≤ y ∧ y ≤ 9999 ∧ 1 ≤ m ∧ m ≤ 12 ∧ 1 ≤ d ∧ d ≤ daysInMonth y m

/-! ### OptionsFetcher.parse_option_symbol (options_fetcher.py lines 23-68)

The Python function runs a `try` block — strip, slice the date digits,
three `int` conversions, the `date` constructor, index position 12, slice
the strike digits, one `float` conversion and a division by 1000 — and on
any exception logs a warning mentioning the original string and returns a
dictionary whose three values are all `None`.  `parseCore` is the `try`
body with each possible exception made explicit; `parse_option_symbol`
packages it exactly like the Python function, returning the result record
together with the optional warning (carrying the input and a reason). -/

/-- Result record of `parse_option_symbol`: a Python dict with exactly the
keys `expiry_date`, `option_type`, `strike_price`. -/
structure ParsedOption where
  expiry_date : Option SDate
  option_type : Option Char
  strike_price : Option ℚ
deriving DecidableEq, Repr

/-- A `logger.warning` record: the original symbol and the failure reason. -/
structure ParseWarning where
  original : List Char
  reason : String
deriving DecidableEq, Repr

/-- The `try` body of `parse_option_symbol` with every exception made an
explicit error, in the order the Python statements execute. -/
def parseCore (symbol : List Char) : Except String (SDate × Char × ℚ) :=
  let op := stripChars symbol
  let es := (op.drop 6).take 6
  match pyInt (es.take 2) with
  | none => .error "ValueError: invalid int literal in year field"
  | some yy =>
    match pyInt ((es.drop 2).take 2) with
    | none => .error "ValueError: invalid int literal in month field"
    | some mm =>
      match pyInt ((es.drop 4).take 2) with
      | none => .error "ValueError: invalid int literal in day field"
      | some dd =>
        if pyValidDate (2000 + yy) mm dd then
          match op.get? 12 with
          | none => .error "IndexError: string index out of range"
          | some t =>
            match pyFloat (op.drop 13) with
            | none => .error "ValueError: could not convert string to float"
            | some v => .ok (⟨2000 + yy, mm, dd⟩, t, v / 1000)
        else .error "ValueError: invalid date"

/-- `OptionsFetcher.parse_option_symbol`: total on every input; on success
the dict is fully populated and no warning is logged, on any exception the
dict fields are all `None` and a warning carrying the original string and a
reason is logged. -/
def parse_option_symbol (symbol : List Char) : ParsedOption × Option ParseWarning :=
  match parseCore symbol with
  | .ok (d, t, v) => (⟨some d, some t, some v⟩, none)
  | .error e => (⟨none, none, none⟩, some ⟨symbol, "Could not parse option symbol: " ++ e⟩)

/-- Underlying extraction used by the fetcher
(`df[..symbol..].str.split().str[0]`): the first whitespace-separated token. -/
def pySplitFirst (symbol : List Char) : List Char :=
  (stripChars symbol).takeWhile (fun c => ¬ isPySpace c)

/-- A fully decoded option symbol (data-model `OptionSymbol`): underlying,
expiry date, option type and strike. -/
structure OptionSym where
  underlying : List Char
  expiry : SDate
  otype : Char
  strike : ℚ
deriving DecidableEq, Repr

/-- Decode a ticker to the data-model `OptionSymbol`: the three parsed
fields from `parse_option_symbol` plus the fetcher's underlying token. -/
def decodeOption (symbol : List Char) : Option OptionSym :=
  match parse_option_symbol symbol with
  | (⟨some d, some t, some v⟩, _) => some ⟨pySplitFirst symbol, d, t, v⟩
  | _ => none

/-- Truncate a rational toward zero to a natural number (Python `int()` on
a non-negative float). -/
def ratTruncToNat (q : ℚ) : ℕ :=
  q.num.toNat / q.den

/-- Fixed-width zero-padded decimal rendering (`"%0*d"`) of `n` truncated
to `width` digits; faithful to Python for `n < 10 ^ width`. -/
def fieldDigits (width n : ℕ) : List Char :=
  (List.range width).map (fun i => dChar (n / 10 ^ (width - 1 - i) % 10))

/-- Two-digit zero-padded rendering (`"%02d"`), faithful for `n < 100`. -/
def pad2 (n : ℕ) : List Char :=
  [dChar (n / 10 % 10), dChar (n % 10)]

/-- Left-aligned space padding of the underlying to six characters. -/
def padTo6 (u : List Char) : List Char :=
  u ++ List.replicate (6 - u.length) ' '

/-- Modelled from the spec: the repository has no encoder, and §3 of the
spec states the fixed-width layout an encoder must reproduce — six
characters of space-padded underlying, six `YYMMDD` digits, one type
character, and a zero-padded strike field scaled by 1000 (the spec claims
seven strike digits; the field width is left as a parameter so that both
the claimed and the actual width can be stated). -/
def encodeOption (strikeWidth : ℕ) (o : OptionSym) : List Char :=
  padTo6 o.underlying
    ++ pad2 (o.expiry.year - 2000).toNat
    ++ pad2 o.expiry.month.toNat
    ++ pad2 o.expiry.day.toNat
    ++ [o.otype]
    ++ fieldDigits strikeWidth (ratTruncToNat (o.strike * 1000))

/-- The well-formed 21-character ticker layout, by constituents: underlying
characters `u`, two-digit year/month/day values, type character and an
eight-digit scaled strike value. -/
def mkTicker (u : List Char) (yy mm dd : ℕ) (t : Char) (n : ℕ) : List Char :=
  padTo6 u ++ pad2 yy ++ pad2 mm ++ pad2 dd ++ [t] ++ fieldDigits 8 n

/-! ### Analyzer (analyzer.py)

pandas frames are modelled as lists of typed rows.  The numeric domain is a
field `K`; `np.log` and the square root (`** 0.5`) are passed in as
functions `rlog`, `rsqrt`, instantiated with `Real.log` / `Real.sqrt` for
the value-level theorems.  `NaN` cells are modelled as `Option.none`:
pandas `pct_change`, `rolling(w).std()` (with the default
`min_periods = window` and `ddof = 1`) and `pct_change(periods=w)` produce
`NaN` exactly on the positions modelled `none` below, for series of valid
positive closes. -/

/-- A row of the price-history frame: `[date, symbol, close]`.  Dates are
modelled as integers (any linearly ordered day count). -/
structure PriceRow (K : Type) where
  symbol : String
  date : ℤ
  close : K
deriving DecidableEq, Repr

/-- A row of a computed statistics frame: `[date, symbol, one value column
per window]`. -/
structure StatRow (K : Type) where
  date : ℤ
  symbol : String
  vals : List (Option K)
deriving DecidableEq, Repr

/-- A row of the signals frame: `run_date`, the `Symbol` column, and the
remaining screener columns abstracted as an opaque payload. -/
structure SignalRow (α : Type) where
  run_date : ℤ
  symbol : String
  payload : α
deriving DecidableEq, Repr

/-- The `(symbol, date)` merge key of a price row. -/
def priceKey {K : Type} (r : PriceRow K) : String × ℤ :=
  (r.symbol, r.date)

/-- The `(symbol, date)` merge key of a statistics row. -/
def statKey {K : Type} (t : StatRow K) : String × ℤ :=
  (t.symbol, t.date)

/-- The window sizes configured in `Analyzer.__init__`. -/
structure AnalyzerCfg where
  realized_vol_windows : List ℕ
  momentum_windows : List ℕ
deriving DecidableEq, Repr

/-- The default configuration (`realized_vol_windows = [10, 20, 60]`,
`momentum_windows = [10, 30, 60]`). -/
def defaultCfg : AnalyzerCfg :=
  ⟨[10, 20, 60], [10, 30, 60]⟩

section Series

variable {K : Type} [Field K]

/-- pandas `groupby(symbol)[close].pct_change()` on one symbol's series of
closes: `NaN` at the head, `close_i / close_{i-1} - 1` afterwards. -/
def pctChange (cs : List K) : List (Option K) :=
  (List.range cs.length).map (fun i =>
    if i = 0 then none else some (cs.getD i 0 / cs.getD (i - 1) 0 - 1))

/-- The `log_ret` column: `np.log(1 + r)` applied where `r` is not `NaN`
(analyzer.py line 34). -/
def logRetSeries (rlog : K → K) (cs : List K) : List (Option K) :=
  (pctChange cs).map (Option.map (fun r => rlog (1 + r)))

/-- Collect a list of optional values; `none` as soon as any entry is
`none` (a `NaN` inside a rolling window poisons the window). -/
def allSome : List (Option K) → Option (List K)
  | [] => some []
  | none :: _ => none
  | some a :: r => (allSome r).map (fun l => a :: l)

/-- Argument of the square root in the sample standard deviation
(`ddof = 1`): sum of squared deviations from the mean over `n - 1`. -/
def stdArg (l : List K) : K :=
  (l.map (fun x => (x - l.sum / (l.length : K)) ^ 2)).sum / ((l.length - 1 : ℕ) : K)

/-- Sample standard deviation of a complete window, `none` when fewer than
two values are available (`ddof = 1` yields `NaN` there). -/
def sampleStd (rsqrt : K → K) (l : List K) : Option K :=
  if l.length ≤ 1 then none else some (rsqrt (stdArg l))

/-- pandas `rolling(w).std()` over a series with optional (`NaN`) entries:
at position `i` the window covers positions `i + 1 - w` through `i`; the
result is defined once the window is full of defined values. -/
def rollingStd (rsqrt : K → K) (w : ℕ) (xs : List (Option K)) : List (Option K) :=
  (List.range xs.length).map (fun i =>
    if i + 1 < w then none
    else (allSome ((List.range w).map (fun j => xs.getD (i + 1 - w + j) none))).bind
      (sampleStd rsqrt))

/-- One symbol's `rv_w` column (analyzer.py line 40): rolling sample
standard deviation of the log returns, annualized by `sqrt 252`. -/
def realizedVolSeries (rlog rsqrt : K → K) (w : ℕ) (cs : List K) : List (Option K) :=
  (rollingStd rsqrt w (logRetSeries rlog cs)).map (Option.map (fun s => s * rsqrt 252))

/-- One symbol's `mom_w` column (analyzer.py line 67):
`pct_change(periods=w)`, i.e. `close_i / close_{i-w} - 1`. -/
def momentumSeries (w : ℕ) (cs : List K) : List (Option K) :=
  (List.range cs.length).map (fun i =>
    if i < w then none else some (cs.getD i 0 / cs.getD (i - w) 0 - 1))

end Series

/-- First-occurrence deduplication worker with an accumulator of already
seen keys. -/
def dedupGo (seen : List String) : List String → List String
  | [] => []
  | a :: t => if a ∈ seen then dedupGo seen t else a :: dedupGo (a :: seen) t

/-- The distinct symbols of a column in first-occurrence order (on a frame
sorted by symbol this is exactly the pandas `groupby` key order). -/
def uniqSyms (l : List String) : List String :=
  dedupGo [] l

/-- First-occurrence deduplication worker for a date column. -/
def dedupDates (seen : List ℤ) : List ℤ → List ℤ
  | [] => []
  | a :: t => if a ∈ seen then dedupDates seen t else a :: dedupDates (a :: seen) t

/-- `Series.unique()` on the date column: the distinct dates in
first-occurrence order, as a numpy array of the column's `datetime64[ns]`
values (modelled by their underlying `int64` values). -/
def uniqDates (l : List ℤ) : List ℤ :=
  dedupDates [] l

section Frames

variable {K : Type} [Field K]

/-- pandas `sort_values([symbol, date])`: sort by symbol (code-point
order, as Python compares strings) then date.  On key-unique frames any
sorting algorithm gives the same result as pandas quicksort. -/
def rowLe (a b : PriceRow K) : Prop :=
  a.symbol.data < b.symbol.data ∨ (a.symbol = b.symbol ∧ a.date ≤ b.date)

/-- Strict `(symbol, date)` order; `Pairwise rowLt` states that a frame is
sorted ascending with unique keys. -/
def rowLt (a b : PriceRow K) : Prop :=
  a.symbol.data < b.symbol.data ∨ (a.symbol = b.symbol ∧ a.date < b.date)

instance : DecidableRel (@rowLe K) := fun a b => by unfold rowLe; infer_instance

instance : DecidableRel (@rowLt K) := fun a b => by unfold rowLt; infer_instance

/-- The sort step shared by `compute_realized_vol` and `compute_momentum`
(analyzer.py lines 31 and 62). -/
def sortPrice (rows : List (PriceRow K)) : List (PriceRow K) :=
  List.insertionSort rowLe rows

/-- pandas `groupby(symbol)`: each distinct symbol in key order paired
with its rows (in frame order). -/
def groupedRows (l : List (PriceRow K)) : List (String × List (PriceRow K)) :=
  (uniqSyms (l.map (·.symbol))).map (fun s => (s, l.filter (fun r => r.symbol == s)))

/-- The single-window frame `df[[date, symbol, col]]` for window `w`: the
grouped per-symbol series written back aligned to the rows of the sorted
frame. -/
def statFrame (f : ℕ → List K → List (Option K)) (w : ℕ) (s : List (PriceRow K)) :
    List (StatRow K) :=
  (groupedRows s).flatMap (fun p =>
    List.zipWith (fun r v => StatRow.mk r.date p.1 [v]) p.2 (f w (p.2.map (·.close))))

/-- pandas `merge(on=[date, symbol])` of two statistics frames (inner join,
the default `how`): for each left row, all key-matching right rows, value
columns concatenated. -/
def innerJoinStat (a b : List (StatRow K)) : List (StatRow K) :=
  a.flatMap (fun r =>
    (b.filter (fun t => t.date == r.date && t.symbol == r.symbol)).map
      (fun t => StatRow.mk r.date r.symbol (r.vals ++ t.vals)))

/-- The shared shape of `compute_realized_vol` and `compute_momentum`
(analyzer.py lines 21-50 and 52-77): sort, build one frame per window,
merge them successively on `(date, symbol)`; an empty window list yields
the empty frame. -/
def computeWindowed (f : ℕ → List K → List (Option K)) (ws : List ℕ)
    (rows : List (PriceRow K)) : List (StatRow K) :=
  match ws with
  | [] => []
  | w :: rest =>
    (rest.map (fun w2 => statFrame f w2 (sortPrice rows))).foldl innerJoinStat
      (statFrame f w (sortPrice rows))

/-- `Analyzer.compute_realized_vol`. -/
def computeRealizedVol (rlog rsqrt : K → K) (ws : List ℕ) (rows : List (PriceRow K)) :
    List (StatRow K) :=
  computeWindowed (realizedVolSeries rlog rsqrt) ws rows

/-- `Analyzer.compute_momentum`. -/
def computeMomentum (ws : List ℕ) (rows : List (PriceRow K)) : List (StatRow K) :=
  computeWindowed momentumSeries ws rows

end Frames

section Merge

variable {K : Type} [Field K] {α : Type}

/-- `signals_df[run_date].iloc[0]` (guarded by the emptiness check). -/
def runDateOf (signals : List (SignalRow α)) : ℤ :=
  match signals with
  | [] => 0
  | s :: _ => s.run_date

/-- Python `max(available_dates)` for a nonempty list. -/
def listMax (l : List ℤ) : ℤ :=
  match l with
  | [] => 0
  | a :: r => r.foldl max a

/-- pandas left merge of the signal batch with a statistics frame on
`Symbol = symbol`: every left row is kept; a row with matches is repeated
once per matching right row carrying that row's value columns, a row
without matches carries missing (`NaN`) value columns, modelled `none`. -/
def leftJoinRv (signals : List (SignalRow α)) (stats : List (StatRow K)) :
    List (SignalRow α × Option (List (Option K))) :=
  signals.flatMap (fun s =>
    let ms := stats.filter (fun t => t.symbol == s.symbol)
    if ms.isEmpty then [(s, none)] else ms.map (fun t => (s, some t.vals)))

/-- The second left merge (momentum columns) on the frame produced by the
first; the join key is still the signal row's `Symbol`. -/
def leftJoinMom (m : List (SignalRow α × Option (List (Option K))))
    (stats : List (StatRow K)) :
    List ((SignalRow α × Option (List (Option K))) × Option (List (Option K))) :=
  m.flatMap (fun r =>
    let ms := stats.filter (fun t => t.symbol == r.1.symbol)
    if ms.isEmpty then [(r, none)] else ms.map (fun t => (r, some t.vals)))

/-- Result of `merge_signals`: either the untouched input frame (the
early-return paths, where pandas returns `signals_df` itself with no new
columns) or the twice-joined frame with the attached statistic columns. -/
abbrev MergeResult (α K : Type) :=
  List (SignalRow α) ⊕
    List ((SignalRow α × Option (List (Option K))) × Option (List (Option K)))

/-- `Analyzer.merge_signals` (analyzer.py lines 79-131): empty-input
checks, run-date extraction from the first row, look-back filter of the
price history, statistics computation, and the date selection of lines
109-110.  `available_dates` is
`rv['date'].unique() if not rv.empty else []`, and line 110 runs
`if available_dates:` — a truth test on that value.  The empty Python
list is falsy; a one-element numpy array has the truth value of its
single entry, an `int64` under the `datetime64[ns]` dtype (dates are
modelled here by that `int64` value, so the entry is falsy exactly when
it is `0`, the 1970-01-01 epoch); and an array of two or more distinct
dates raises `ValueError` — the merge crashes instead of producing any
output.  In the truthy case `latest_date = max(available_dates)` is the
single distinct date and the two left joins run as in lines 113-131. -/
def mergeSignals (rlog rsqrt : K → K) (cfg : AnalyzerCfg)
    (signals : List (SignalRow α)) (price : List (PriceRow K)) :
    Except String (MergeResult α K) :=
  if signals.isEmpty ∨ price.isEmpty then .ok (.inl signals)
  else
    let d := runDateOf signals
    let hist := price.filter (fun r => r.date ≤ d)
    if hist.isEmpty then .ok (.inl signals)
    else
      let rv := computeRealizedVol rlog rsqrt cfg.realized_vol_windows hist
      let mom := computeMomentum cfg.momentum_windows hist
      let avail := if rv.isEmpty then [] else uniqDates (rv.map (·.date))
      match avail with
      | [] => .ok (.inl signals)
      | [d0] =>
        if d0 = 0 then .ok (.inl signals)
        else
          let latest := listMax [d0]
          let rvToday := rv.filter (fun t => t.date == latest)
          let momToday := mom.filter (fun t => t.date == latest)
          let m1 := if rvToday.isEmpty then signals.map (fun s => (s, none))
                    else leftJoinRv signals rvToday
          let m2 := if momToday.isEmpty then m1.map (fun r => (r, none))
                    else leftJoinMom m1 momToday
          .ok (.inr m2)
      | _ :: _ :: _ =>
        .error "ValueError: The truth value of an array with more than one element is ambiguous. Use a.any() or a.all()"

/-- The signal rows carried by a merge result, in order (for a joined
frame, the signal part of every output row). -/
def outSignals : MergeResult α K → List (SignalRow α)
  | .inl s => s
  | .inr rows => rows.map (fun r => r.1.1)

/-- The `latest_date` the merge selects, when it reaches the joins:
`none` on every early-return path and on the crashing multi-date path,
otherwise `max(available_dates)` over the one-element truthy
`available_dates` array. -/
def statDateUsed (rlog rsqrt : K → K) (cfg : AnalyzerCfg)
    (signals : List (SignalRow α)) (price : List (PriceRow K)) : Option ℤ :=
  if signals.isEmpty ∨ price.isEmpty then none
  else
    let hist := price.filter (fun r => r.date ≤ runDateOf signals)
    if hist.isEmpty then none
    else
      let rv := computeRealizedVol rlog rsqrt cfg.realized_vol_windows hist
      let avail := if rv.isEmpty then [] else uniqDates (rv.map (·.date))
      match avail with
      | [d0] => if d0 = 0 then none else some (listMax [d0])
      | _ => none

/-- The joined frame built by `merge_signals` for a given selected
statistics date `L` (the body below the `latest_date` selection). -/
def enrichedAt (rlog rsqrt : K → K) (cfg : AnalyzerCfg)
    (signals : List (SignalRow α)) (price : List (PriceRow K)) (L : ℤ) :
    List ((SignalRow α × Option (List (Option K))) × Option (List (Option K))) :=
  let hist := price.filter (fun r => r.date ≤ runDateOf signals)
  let rv := computeRealizedVol rlog rsqrt cfg.realized_vol_windows hist
  let mom := computeMomentum cfg.momentum_windows hist
  let rvToday := rv.filter (fun t => t.date == L)
  let momToday := mom.filter (fun t => t.date == L)
  let m1 := if rvToday.isEmpty then signals.map (fun s => (s, none))
            else leftJoinRv signals rvToday
  if momToday.isEmpty then m1.map (fun r => (r, none)) else leftJoinMom m1 momToday

end Merge

/-! ### Column-name handling (claim about symbol-column casing)

`compute_realized_vol` and `compute_momentum` access the column named
`symbol` directly (analyzer.py lines 31, 34, 40, 62, 67); `merge_signals`
alone probes for `symbol` versus `Symbol` and renames (lines 95-98).  A
frame is modelled together with the name its symbol column carries. -/

/-- A price frame whose symbol column carries an explicit name. -/
structure PriceDF (K : Type) where
  symCol : String
  rows : List (PriceRow K)
deriving DecidableEq, Repr

section ColumnNames

variable {K : Type} [Field K] {α : Type}

/-- `Analyzer.compute_realized_vol` on a named-column frame:
`sort_values([symbol, date])` raises `KeyError` unless the column is
literally named `symbol`. -/
def computeRealizedVolDF (rlog rsqrt : K → K) (ws : List ℕ) (df : PriceDF K) :
    Except String (List (StatRow K)) :=
  if df.symCol = "symbol" then .ok (computeRealizedVol rlog rsqrt ws df.rows)
  else .error "KeyError: symbol"

/-- `Analyzer.compute_momentum` on a named-column frame. -/
def computeMomentumDF (ws : List ℕ) (df : PriceDF K) :
    Except String (List (StatRow K)) :=
  if df.symCol = "symbol" then .ok (computeMomentum ws df.rows)
  else .error "KeyError: symbol"

/-- `Analyzer.merge_signals` on a named-column price frame: after the
emptiness checks it selects `symbol` if present else `Symbol` (line 96),
raising `KeyError` when the frame has neither, and renames the selected
column to `symbol` before computing. -/
def mergeSignalsDF (rlog rsqrt : K → K) (cfg : AnalyzerCfg)
    (signals : List (SignalRow α)) (df : PriceDF K) :
    Except String (MergeResult α K) :=
  if signals.isEmpty ∨ df.rows.isEmpty then .ok (.inl signals)
  else if df.symCol = "symbol" ∨ df.symCol = "Symbol" then
    mergeSignals rlog rsqrt cfg signals df.rows
  else .error "KeyError: Symbol"

end ColumnNames

/-! ### SignalLogger.append_to_log (signal_logger.py lines 58-65)

The log file is modelled as its list of lines (`none` = the file does not
exist).  `df.to_csv(path, index=False)` writes the header line followed by
one rendered line per row; `df.to_csv(path, mode=a, header=False,
index=False)` appends the rendered rows only. -/

/-- A data frame about to be written as CSV: header names and rows of
cells, all as strings. -/
structure CsvDF where
  header : List String
  rows : List (List String)
deriving DecidableEq, Repr

/-- Comma-joined rendering of one CSV line. -/
def renderRow (cells : List String) : String :=
  String.intercalate "," cells

/-- The lines `to_csv` writes for a frame (header first). -/
def dfLines (df : CsvDF) : List String :=
  renderRow df.header :: df.rows.map renderRow

/-- `SignalLogger.append_to_log`: create the file with a header when the
path does not exist, otherwise append the rows without a header. -/
def appendToLog (file : Option (List String)) (df : CsvDF) : List String :=
  match file with
  | none => dfLines df
  | some lines => lines ++ df.rows.map renderRow

/-! ### Derived characterizations and spec-side definitions -/

section Derived

variable {K : Type} [Field K] {α : Type}

/-- All window columns of one symbol's series at each row position (the
row-aligned value lists that the successive `(date, symbol)` merges of the
per-window frames produce on a key-unique frame). -/
def multiSeriesVals (f : ℕ → List K → List (Option K)) (ws : List ℕ) (cs : List K) :
    List (List (Option K)) :=
  (List.range cs.length).map (fun i => ws.map (fun w => (f w cs).getD i none))

/-- Direct form of the merged multi-window statistics frame: one row per
sorted price row carrying all window columns. -/
def multiFrame (f : ℕ → List K → List (Option K)) (ws : List ℕ)
    (l : List (PriceRow K)) : List (StatRow K) :=
  (groupedRows l).flatMap (fun p =>
    List.zipWith (fun r vs => StatRow.mk r.date p.1 vs) p.2
      (multiSeriesVals f ws (p.2.map (·.close))))

/-- Forget the `run_date` column of a signal row (keep symbol and payload). -/
def eraseRow (s : SignalRow α) : String × α :=
  (s.symbol, s.payload)

/-- Forget the `run_date` column in a once-joined row. -/
def eraseJ1 (p : SignalRow α × Option (List (Option K))) :
    (String × α) × Option (List (Option K)) :=
  (eraseRow p.1, p.2)

/-- Forget the `run_date` column in a twice-joined row. -/
def eraseJ2 (p : (SignalRow α × Option (List (Option K))) × Option (List (Option K))) :
    ((String × α) × Option (List (Option K))) × Option (List (Option K)) :=
  (eraseJ1 p.1, p.2)

/-- Forget the `run_date` column everywhere in a merge result. -/
def eraseResult : MergeResult α K →
    List (String × α) ⊕
      List (((String × α) × Option (List (Option K))) × Option (List (Option K)))
  | .inl s => .inl (s.map eraseRow)
  | .inr rows => .inr (rows.map eraseJ2)

end Derived

section SpecSide

variable {K : Type} [Field K]

/-- The spec-side log returns entering the window ending at observation
`i` for window size `w`: `r_t = ln(close_t / close_{t-1})` for
`t = i - w + 1, …, i` (with `rlog` instantiated by `Real.log`). -/
def specLogReturns (rlog : K → K) (cs : List K) (i w : ℕ) : List K :=
  (List.range w).map (fun j =>
    rlog (cs.getD (i + 1 - w + j) 0 / cs.getD (i - w + j) 0))

/-- The spec-side realized-volatility table (with the head-of-series
behavior the code actually has): per symbol, the first `w` observations of
the `rv_w` column are missing, and each observation `i ≥ w` carries the
sample standard deviation of the trailing `w` log returns annualized by
`sqrt 252`. -/
def specRealizedVolTable (rlog rsqrt : K → K) (ws : List ℕ)
    (table : List (PriceRow K)) : List (StatRow K) :=
  (groupedRows table).flatMap (fun p =>
    List.zipWith (fun r vs => StatRow.mk r.date p.1 vs) p.2
      ((List.range p.2.length).map (fun i => ws.map (fun w =>
        if i < w then none
        else some (rsqrt (stdArg (specLogReturns rlog (p.2.map (·.close)) i w)) *
          rsqrt 252)))))

end SpecSide

/-! ### Concrete inputs used by witnesses and counterexamples -/

/-- The well-formed ticker from §8 of the spec. -/
def algnTicker : List Char :=
  "ALGN  240823C00165000".data

/-- The same ticker with the unvalidated type character replaced by `X`. -/
def tickerTypeX : List Char :=
  "ALGN  240823X00165000".data

/-- A signal batch mixing two distinct run dates. -/
def mixedBatch : List (SignalRow ℕ) :=
  [⟨5, "A", 0⟩, ⟨7, "B", 1⟩]

/-- A one-row price history dated before both run dates above. -/
def mixedBatchPrices : List (PriceRow ℚ) :=
  [⟨"A", 4, 1⟩]

/-! ## Theorems -/

/-- C10: `parse_option_symbol` is total — on every input it returns the
three-field record, and either all three fields are populated with no
warning, or all three are `None` and the logged warning carries the
original input string and a reason; there is no partially populated
outcome and no escaping exception. -/
theorem parse_option_symbol_total_all_or_nothing (s : List Char) :
    (∃ d t v, parse_option_symbol s = (⟨some d, some t, some v⟩, none)) ∨
    ∃ e, parse_option_symbol s = (⟨none, none, none⟩, some ⟨s, e⟩) := by
  cases h : parseCore s with
  | ok val => exact .inl ⟨val.1, val.2.1, val.2.2, by simp [parse_option_symbol, h]⟩
  | error e =>
    exact .inr ⟨"Could not parse option symbol: " ++ e, by simp [parse_option_symbol, h]⟩

/-- C9: two appends on a fresh path produce a file headed by the header
line, containing the header exactly once, with one data line per row of
the two batches (provided, as the schema guarantees, no data row renders
identically to the header line). -/
theorem append_to_log_twice_header_once (df₁ df₂ : CsvDF)
    (h : renderRow df₁.header ∉ (df₁.rows ++ df₂.rows).map renderRow) :
    (appendToLog (some (appendToLog none df₁)) df₂).head? = some (renderRow df₁.header) ∧
    (appendToLog (some (appendToLog none df₁)) df₂).count (renderRow df₁.header) = 1 ∧
    (appendToLog (some (appendToLog none df₁)) df₂).length =
      1 + df₁.rows.length + df₂.rows.length := by
  rw [List.map_append] at h
  simp only [appendToLog, dfLines, List.cons_append]
  refine ⟨rfl, ?_, by simp; omega⟩
  rw [List.count_cons_self, List.count_eq_zero.mpr (by simpa using h)]

/-- Witness for C9 at concrete batches. -/
theorem append_to_log_twice_header_once_witness :
    (renderRow ["a", "b"] ∉
      (([["1", "2"]] ++ [["3", "4"], ["5", "6"]]).map renderRow)) ∧
    ((appendToLog (some (appendToLog none ⟨["a", "b"], [["1", "2"]]⟩))
        ⟨["a", "b"], [["3", "4"], ["5", "6"]]⟩).head? = some (renderRow ["a", "b"]) ∧
      (appendToLog (some (appendToLog none ⟨["a", "b"], [["1", "2"]]⟩))
        ⟨["a", "b"], [["3", "4"], ["5", "6"]]⟩).count (renderRow ["a", "b"]) = 1 ∧
      (appendToLog (some (appendToLog none ⟨["a", "b"], [["1", "2"]]⟩))
        ⟨["a", "b"], [["3", "4"], ["5", "6"]]⟩).length = 1 + 1 + 2) :=
  ⟨by decide, append_to_log_twice_header_once ⟨["a", "b"], [["1", "2"]]⟩
    ⟨["a", "b"], [["3", "4"], ["5", "6"]]⟩ (by decide)⟩

/-- C6: `merge_signals` returns its first argument untouched whenever the
signal batch is empty, the price table is empty, or the price history
filtered to dates at or before the batch run date is empty. -/
theorem merge_signals_empty_noop {K : Type} [Field K] {α : Type} (rlog rsqrt : K → K)
    (cfg : AnalyzerCfg) (S : List (SignalRow α)) (P : List (PriceRow K))
    (h : S = [] ∨ P = [] ∨ P.filter (fun r => r.date ≤ runDateOf S) = []) :
    mergeSignals rlog rsqrt cfg S P = .ok (.inl S) := by
  rcases h with h | h | h
  · subst h; simp [mergeSignals]
  · subst h; simp [mergeSignals]
  · unfold mergeSignals
    by_cases h1 : (S.isEmpty ∨ P.isEmpty)
    · rw [if_pos h1]
    · rw [if_neg h1]
      simp only [h, List.isEmpty_nil, if_true]

/-- Witness for C6: a nonempty batch with a price table entirely dated
after the run date. -/
theorem merge_signals_empty_noop_witness :
    (([] : List (SignalRow ℕ)) = [] ∨ ([⟨"A", 9, 1⟩] : List (PriceRow ℚ)) = [] ∨
      ([⟨"A", 9, 1⟩] : List (PriceRow ℚ)).filter
        (fun r => r.date ≤ runDateOf ([⟨5, "A", 0⟩] : List (SignalRow ℕ))) = []) ∧
    mergeSignals (id : ℚ → ℚ) id defaultCfg [(⟨5, "A", 0⟩ : SignalRow ℕ)]
      [(⟨"A", 9, 1⟩ : PriceRow ℚ)] = .ok (.inl [⟨5, "A", 0⟩]) :=
  ⟨by decide, merge_signals_empty_noop id id defaultCfg _ _ (by decide)⟩

/-- C8 (amended): only `merge_signals` normalizes the symbol-column name —
it produces identical results on a price frame whose symbol column is
named `Symbol` or `symbol`. -/
theorem merge_signals_df_col_name_invariant {K : Type} [Field K] {α : Type}
    (rlog rsqrt : K → K) (cfg : AnalyzerCfg) (S : List (SignalRow α))
    (rows : List (PriceRow K)) :
    mergeSignalsDF rlog rsqrt cfg S ⟨"Symbol", rows⟩ =
      mergeSignalsDF rlog rsqrt cfg S ⟨"symbol", rows⟩ := by
  unfold mergeSignalsDF
  by_cases h : (S.isEmpty ∨ rows.isEmpty)
  · rw [if_pos h, if_pos h]
  · rw [if_neg h, if_neg h, if_pos (Or.inr rfl), if_pos (Or.inl rfl)]

/-- C8 counterexample: `compute_realized_vol` and `compute_momentum`
themselves do not accept an upper-cased `Symbol` column — they raise
`KeyError` where the lower-cased frame yields statistics, so the two
casings do not produce the same statistics from these functions. -/
theorem compute_stats_symbol_col_cex :
    computeRealizedVolDF (id : ℚ → ℚ) id [10, 20, 60] ⟨"Symbol", [⟨"A", 1, 1⟩]⟩ =
      .error "KeyError: symbol" ∧
    computeRealizedVolDF (id : ℚ → ℚ) id [10, 20, 60] ⟨"symbol", [⟨"A", 1, 1⟩]⟩ =
      .ok [⟨1, "A", [none, none, none]⟩] ∧
    computeMomentumDF [10, 30, 60] (⟨"Symbol", [⟨"A", 1, 1⟩]⟩ : PriceDF ℚ) =
      .error "KeyError: symbol" ∧
    (Except.error "KeyError: symbol" ≠
      (.ok [⟨1, "A", [none, none, none]⟩] : Except String (List (StatRow ℚ)))) :=
  ⟨rfl, rfl, rfl, by simp⟩

section RunDateLemmas

variable {K : Type} [Field K] {α : Type}

/-- Erasing run dates after the first left join only depends on the
run-date-erased signal rows. -/
theorem leftJoinRv_erase (S : List (SignalRow α)) (T : List (StatRow K)) :
    (leftJoinRv S T).map eraseJ1 = (S.map eraseRow).flatMap (fun e =>
      if (T.filter (fun u => u.symbol == e.1)).isEmpty then [(e, none)]
      else (T.filter (fun u => u.symbol == e.1)).map (fun u => (e, some u.vals))) := by
  unfold leftJoinRv
  rw [List.map_flatMap, List.flatMap_map]
  apply List.flatMap_congr
  intro s _
  by_cases hms : (T.filter (fun t => t.symbol == s.symbol)).isEmpty = true
  · have hms2 : (T.filter (fun u => u.symbol == (eraseRow s).1)).isEmpty = true := hms
    rw [if_pos hms, if_pos hms2]
    rfl
  · have hms2 : ¬(T.filter (fun u => u.symbol == (eraseRow s).1)).isEmpty = true := hms
    rw [if_neg hms, if_neg hms2, List.map_map]
    rfl

/-- Erasing run dates after the second left join only depends on the
run-date-erased once-joined rows. -/
theorem leftJoinMom_erase (m : List (SignalRow α × Option (List (Option K))))
    (T : List (StatRow K)) :
    (leftJoinMom m T).map eraseJ2 = (m.map eraseJ1).flatMap (fun e =>
      if (T.filter (fun u => u.symbol == e.1.1)).isEmpty then [(e, none)]
      else (T.filter (fun u => u.symbol == e.1.1)).map (fun u => (e, some u.vals))) := by
  unfold leftJoinMom
  rw [List.map_flatMap, List.flatMap_map]
  apply List.flatMap_congr
  intro r _
  by_cases hms : (T.filter (fun t => t.symbol == r.1.symbol)).isEmpty = true
  · have hms2 : (T.filter (fun u => u.symbol == (eraseJ1 r).1.1)).isEmpty = true := hms
    rw [if_pos hms, if_pos hms2]
    rfl
  · have hms2 : ¬(T.filter (fun u => u.symbol == (eraseJ1 r).1.1)).isEmpty = true := hms
    rw [if_neg hms, if_neg hms2, List.map_map]
    rfl

/-- Congruence: two signal batches with the same emptiness, the same first
run date and the same run-date-erased rows are enriched identically up to
the carried run-date column. -/
theorem mergeSignals_erase_congr (rlog rsqrt : K → K) (cfg : AnalyzerCfg)
    (S₁ S₂ : List (SignalRow α)) (P : List (PriceRow K))
    (hlen : S₁.isEmpty = S₂.isEmpty) (hd : runDateOf S₁ = runDateOf S₂)
    (hE : S₁.map eraseRow = S₂.map eraseRow) :
    (mergeSignals rlog rsqrt cfg S₁ P).map eraseResult =
      (mergeSignals rlog rsqrt cfg S₂ P).map eraseResult := by
  have emap1 : ∀ S : List (SignalRow α),
      (S.map (fun s => (s, (none : Option (List (Option K)))))).map eraseJ1 =
        (S.map eraseRow).map (fun e => (e, none)) := by
    intro S
    rw [List.map_map, List.map_map]
    rfl
  have emap2 : ∀ m : List (SignalRow α × Option (List (Option K))),
      (m.map (fun r => (r, (none : Option (List (Option K)))))).map eraseJ2 =
        (m.map eraseJ1).map (fun e => (e, none)) := by
    intro m
    rw [List.map_map, List.map_map]
    rfl
  simp only [mergeSignals]
  by_cases h1 : (S₁.isEmpty = true ∨ P.isEmpty = true)
  · have h2 : (S₂.isEmpty = true ∨ P.isEmpty = true) := by rwa [hlen] at h1
    rw [if_pos h1, if_pos h2]
    simp only [Except.map, eraseResult]
    rw [hE]
  · have h2 : ¬(S₂.isEmpty = true ∨ P.isEmpty = true) := by rwa [hlen] at h1
    rw [if_neg h1, if_neg h2, hd]
    by_cases hh : (P.filter (fun r => r.date ≤ runDateOf S₂)).isEmpty = true
    · rw [if_pos hh, if_pos hh]
      simp only [Except.map, eraseResult]
      rw [hE]
    · rw [if_neg hh, if_neg hh]
      cases hA : (if (computeRealizedVol rlog rsqrt cfg.realized_vol_windows
            (P.filter (fun r => r.date ≤ runDateOf S₂))).isEmpty = true then []
          else uniqDates ((computeRealizedVol rlog rsqrt cfg.realized_vol_windows
            (P.filter (fun r => r.date ≤ runDateOf S₂))).map (fun t => t.date))) with
      | nil =>
        dsimp only
        simp only [Except.map, eraseResult]
        rw [hE]
      | cons d0 rest =>
        cases rest with
        | cons d1 rest2 => rfl
        | nil =>
          dsimp only
          by_cases hz : d0 = 0
          · rw [if_pos hz, if_pos hz]
            simp only [Except.map, eraseResult]
            rw [hE]
          · rw [if_neg hz, if_neg hz]
            simp only [Except.map, eraseResult]
            refine congrArg (fun l => Except.ok (Sum.inr l)) ?_
            set T := computeRealizedVol rlog rsqrt cfg.realized_vol_windows
              (P.filter (fun r => r.date ≤ runDateOf S₂)) with hT
            set L := listMax [d0] with hL
            set rvT := T.filter (fun t => t.date == L) with hrvT
            set M := (computeMomentum cfg.momentum_windows
              (P.filter (fun r => r.date ≤ runDateOf S₂))).filter (fun t => t.date == L)
              with hM
            have hm1 : (if rvT.isEmpty then
                  S₁.map (fun s => (s, (none : Option (List (Option K)))))
                else leftJoinRv S₁ rvT).map eraseJ1 =
                (if rvT.isEmpty then
                  S₂.map (fun s => (s, (none : Option (List (Option K)))))
                else leftJoinRv S₂ rvT).map eraseJ1 := by
              by_cases hrt : rvT.isEmpty = true
              · rw [if_pos hrt, if_pos hrt, emap1, emap1, hE]
              · rw [if_neg hrt, if_neg hrt, leftJoinRv_erase, leftJoinRv_erase, hE]
            by_cases hmt : M.isEmpty = true
            · rw [if_pos hmt, if_pos hmt, emap2, emap2, hm1]
            · rw [if_neg hmt, if_neg hmt, leftJoinMom_erase, leftJoinMom_erase, hm1]

end RunDateLemmas

/-- C7 (amended): `merge_signals` performs no validation of the run-date
column — it reads the run date of the first row only, so replacing the
run dates of all later rows by arbitrary values changes nothing in the
enrichment beyond the copied-through run-date column itself; a mixed batch
is processed silently. -/
theorem merge_signals_run_date_from_first_row {K : Type} [Field K] {α : Type}
    (rlog rsqrt : K → K) (cfg : AnalyzerCfg) (s0 : SignalRow α)
    (t : List (SignalRow α)) (f : SignalRow α → ℤ) (P : List (PriceRow K)) :
    (mergeSignals rlog rsqrt cfg
      (s0 :: t.map (fun r => ⟨f r, r.symbol, r.payload⟩)) P).map eraseResult =
    (mergeSignals rlog rsqrt cfg (s0 :: t) P).map eraseResult := by
  apply mergeSignals_erase_congr
  · rfl
  · rfl
  · simp [List.map_map, eraseRow, Function.comp]

/-- C7 counterexample: a batch whose rows carry the distinct run dates 5
and 7 is not rejected — `merge_signals` silently enriches it using the
first row's run date. -/
theorem merge_signals_mixed_batch_cex :
    ((5 : ℤ) ≠ 7 ∧ mixedBatch.map (fun s => s.run_date) = [5, 7]) ∧
    mergeSignals (id : ℚ → ℚ) id defaultCfg mixedBatch mixedBatchPrices =
      .ok (.inr [((⟨5, "A", 0⟩, some [none, none, none]), some [none, none, none]),
            ((⟨7, "B", 1⟩, none), none)]) :=
  ⟨⟨by decide, rfl⟩, rfl⟩

/-- C5 (amended): whenever any extraction step of the parse fails — the
year, month or day field is not an integer literal, the three date fields
do not form a valid calendar date, the stripped input is too short to have
a type character at position 12, or the strike field is not a float
literal — `parse_option_symbol` returns the all-`None` record and logs a
warning carrying the original input string and a reason.  (The option-type
character itself is never validated; see the counterexample.) -/
theorem parse_extraction_failure_all_none (s : List Char)
    (h : pyInt ((((stripChars s).drop 6).take 6).take 2) = none ∨
         pyInt (((((stripChars s).drop 6).take 6).drop 2).take 2) = none ∨
         pyInt (((((stripChars s).drop 6).take 6).drop 4).take 2) = none ∨
         (∃ yy mm dd, pyInt ((((stripChars s).drop 6).take 6).take 2) = some yy ∧
            pyInt (((((stripChars s).drop 6).take 6).drop 2).take 2) = some mm ∧
            pyInt (((((stripChars s).drop 6).take 6).drop 4).take 2) = some dd ∧
            pyValidDate (2000 + yy) mm dd = false) ∨
         (stripChars s).length ≤ 12 ∨
         pyFloat ((stripChars s).drop 13) = none) :
    (parse_option_symbol s).1 = ⟨none, none, none⟩ ∧
    ∃ e, (parse_option_symbol s).2 = some ⟨s, e⟩ := by
  suffices hs : ∃ e, parseCore s = .error e by
    obtain ⟨e, he⟩ := hs
    refine ⟨by simp [parse_option_symbol, he],
      ⟨"Could not parse option symbol: " ++ e, ?_⟩⟩
    simp [parse_option_symbol, he]
  rcases h with h | h | h | ⟨yy, mm, dd, hy, hm, hdd, hv⟩ | h | h
  · exact ⟨"ValueError: invalid int literal in year field", by simp [parseCore, h]⟩
  · cases hy : pyInt ((((stripChars s).drop 6).take 6).take 2) with
    | none =>
      exact ⟨"ValueError: invalid int literal in year field", by simp [parseCore, hy]⟩
    | some yy =>
      exact ⟨"ValueError: invalid int literal in month field",
        by simp [parseCore, hy, h]⟩
  · cases hy : pyInt ((((stripChars s).drop 6).take 6).take 2) with
    | none =>
      exact ⟨"ValueError: invalid int literal in year field", by simp [parseCore, hy]⟩
    | some yy =>
      cases hm : pyInt (((((stripChars s).drop 6).take 6).drop 2).take 2) with
      | none =>
        exact ⟨"ValueError: invalid int literal in month field",
          by simp [parseCore, hy, hm]⟩
      | some mm =>
        exact ⟨"ValueError: invalid int literal in day field",
          by simp [parseCore, hy, hm, h]⟩
  · exact ⟨"ValueError: invalid date", by simp [parseCore, hy, hm, hdd, hv]⟩
  · have h12 : (stripChars s)[12]? = none := List.getElem?_eq_none h
    cases hy : pyInt ((((stripChars s).drop 6).take 6).take 2) with
    | none =>
      exact ⟨"ValueError: invalid int literal in year field", by simp [parseCore, hy]⟩
    | some yy =>
      cases hm : pyInt (((((stripChars s).drop 6).take 6).drop 2).take 2) with
      | none =>
        exact ⟨"ValueError: invalid int literal in month field",
          by simp [parseCore, hy, hm]⟩
      | some mm =>
        cases hdd : pyInt (((((stripChars s).drop 6).take 6).drop 4).take 2) with
        | none =>
          exact ⟨"ValueError: invalid int literal in day field",
            by simp [parseCore, hy, hm, hdd]⟩
        | some dd =>
          by_cases hv : pyValidDate (2000 + yy) mm dd = true
          · exact ⟨"IndexError: string index out of range",
              by simp [parseCore, hy, hm, hdd, hv, h12]⟩
          · exact ⟨"ValueError: invalid date",
              by simp [parseCore, hy, hm, hdd, hv]⟩
  · cases hy : pyInt ((((stripChars s).drop 6).take 6).take 2) with
    | none =>
      exact ⟨"ValueError: invalid int literal in year field", by simp [parseCore, hy]⟩
    | some yy =>
      cases hm : pyInt (((((stripChars s).drop 6).take 6).drop 2).take 2) with
      | none =>
        exact ⟨"ValueError: invalid int literal in month field",
          by simp [parseCore, hy, hm]⟩
      | some mm =>
        cases hdd : pyInt (((((stripChars s).drop 6).take 6).drop 4).take 2) with
        | none =>
          exact ⟨"ValueError: invalid int literal in day field",
            by simp [parseCore, hy, hm, hdd]⟩
        | some dd =>
          by_cases hv : pyValidDate (2000 + yy) mm dd = true
          · cases hg : (stripChars s)[12]? with
            | none =>
              exact ⟨"IndexError: string index out of range",
                by simp [parseCore, hy, hm, hdd, hv, hg]⟩
            | some t =>
              exact ⟨"ValueError: could not convert string to float",
                by simp [parseCore, hy, hm, hdd, hv, hg, h]⟩
          · exact ⟨"ValueError: invalid date",
              by simp [parseCore, hy, hm, hdd, hv]⟩

/-- Witness for C5 at a concrete too-short input. -/
theorem parse_extraction_failure_all_none_witness :
    (pyInt ((((stripChars "BAD".data).drop 6).take 6).take 2) = none ∨
     pyInt (((((stripChars "BAD".data).drop 6).take 6).drop 2).take 2) = none ∨
     pyInt (((((stripChars "BAD".data).drop 6).take 6).drop 4).take 2) = none ∨
     (∃ yy mm dd, pyInt ((((stripChars "BAD".data).drop 6).take 6).take 2) = some yy ∧
        pyInt (((((stripChars "BAD".data).drop 6).take 6).drop 2).take 2) = some mm ∧
        pyInt (((((stripChars "BAD".data).drop 6).take 6).drop 4).take 2) = some dd ∧
        pyValidDate (2000 + yy) mm dd = false) ∨
     (stripChars "BAD".data).length ≤ 12 ∨
     pyFloat ((stripChars "BAD".data).drop 13) = none) ∧
    ((parse_option_symbol "BAD".data).1 = ⟨none, none, none⟩ ∧
      ∃ e, (parse_option_symbol "BAD".data).2 = some ⟨"BAD".data, e⟩) :=
  have h : _ := Or.inr (Or.inr (Or.inr (Or.inr (Or.inl
    (show (stripChars "BAD".data).length ≤ 12 by decide)))))
  ⟨h, parse_extraction_failure_all_none "BAD".data h⟩

/-- C5 counterexample: a ticker with the unknown option-type character
`X` is not rejected — the parse succeeds, returns `X` verbatim as the
option type with fully populated fields, and logs nothing. -/
theorem parse_unknown_type_char_accepted_cex :
    parse_option_symbol tickerTypeX =
      (⟨some ⟨2024, 8, 23⟩, some 'X', some (((165000 : ℕ) : ℚ) / 1000)⟩, none) ∧
    ('X' ≠ 'C' ∧ 'X' ≠ 'P') :=
  ⟨rfl, by decide⟩

section ListHelpers

/-- A fold of `max` produces either the seed or a list element. -/
theorem foldl_max_mem (r : List ℤ) : ∀ a : ℤ, r.foldl max a = a ∨ r.foldl max a ∈ r := by
  induction r with
  | nil => exact fun a => .inl rfl
  | cons b r ih =>
    intro a
    rcases ih (max a b) with h | h
    · rcases max_choice a b with hm | hm
      · exact .inl (by rw [List.foldl_cons, h, hm])
      · exact .inr (by rw [List.foldl_cons, h, hm]; exact List.mem_cons_self b r)
    · exact .inr (List.mem_cons_of_mem _ (by rw [List.foldl_cons]; exact h))

/-- A fold of `max` dominates the seed and every list element. -/
theorem foldl_max_ge (r : List ℤ) : ∀ a : ℤ,
    a ≤ r.foldl max a ∧ ∀ x ∈ r, x ≤ r.foldl max a := by
  induction r with
  | nil => exact fun a => ⟨le_refl a, by simp⟩
  | cons c r ih =>
    intro a
    obtain ⟨h1, h2⟩ := ih (max a c)
    rw [List.foldl_cons]
    refine ⟨le_trans (le_max_left a c) h1, ?_⟩
    intro x hx
    rcases List.mem_cons.mp hx with hx | hx
    · rw [hx]
      exact le_trans (le_max_right a c) h1
    · exact h2 x hx

/-- `listMax` of a nonempty list is an element of it. -/
theorem listMax_mem (l : List ℤ) (h : l ≠ []) : listMax l ∈ l := by
  cases l with
  | nil => exact absurd rfl h
  | cons a r =>
    rcases foldl_max_mem r a with hh | hh
    · rw [listMax, hh]; exact List.mem_cons_self a r
    · exact List.mem_cons_of_mem _ hh

/-- `listMax` dominates every element. -/
theorem listMax_ge (l : List ℤ) (x : ℤ) (hx : x ∈ l) : x ≤ listMax l := by
  cases l with
  | nil => cases hx
  | cons a r =>
    rcases List.mem_cons.mp hx with hx | hx
    · subst hx; exact (foldl_max_ge r x).1
    · exact (foldl_max_ge r a).2 x hx

/-- Membership in a `zipWith` comes from members of the two lists. -/
theorem mem_zipWith {α β γ : Type} {f : α → β → γ} {x : γ} :
    ∀ {as : List α} {bs : List β}, x ∈ List.zipWith f as bs →
      ∃ a ∈ as, ∃ b ∈ bs, x = f a b := by
  intro as
  induction as with
  | nil => intro bs h; simp at h
  | cons a as ih =>
    intro bs h
    cases bs with
    | nil => simp at h
    | cons b bs =>
      rcases List.mem_cons.mp h with h | h
      · exact ⟨a, List.mem_cons_self _ _, b, List.mem_cons_self _ _, h⟩
      · obtain ⟨a2, ha, b2, hb, he⟩ := ih h
        exact ⟨a2, List.mem_cons_of_mem _ ha, b2, List.mem_cons_of_mem _ hb, he⟩

end ListHelpers

section DateDedupLemmas

/-- Every element kept by the date deduplication comes from the column. -/
theorem dedupDates_mem_of (l : List ℤ) : ∀ (seen : List ℤ) (x : ℤ),
    x ∈ dedupDates seen l → x ∈ l := by
  induction l with
  | nil =>
    intro seen x hx
    rw [dedupDates] at hx
    cases hx
  | cons a t ih =>
    intro seen x hx
    rw [dedupDates] at hx
    by_cases ha : a ∈ seen
    · rw [if_pos ha] at hx
      exact List.mem_cons_of_mem a (ih seen x hx)
    · rw [if_neg ha] at hx
      rcases List.mem_cons.mp hx with rfl | hx2
      · exact List.mem_cons_self x t
      · exact List.mem_cons_of_mem a (ih (a :: seen) x hx2)

/-- Every date of the column survives deduplication unless already seen. -/
theorem dedupDates_mem (x : ℤ) : ∀ (l seen : List ℤ),
    x ∈ l → x ∈ seen ∨ x ∈ dedupDates seen l := by
  intro l
  induction l with
  | nil =>
    intro seen hx
    cases hx
  | cons a t ih =>
    intro seen hx
    rw [dedupDates]
    by_cases ha : a ∈ seen
    · rw [if_pos ha]
      rcases List.mem_cons.mp hx with rfl | hx2
      · exact Or.inl ha
      · exact ih seen hx2
    · rw [if_neg ha]
      rcases List.mem_cons.mp hx with rfl | hx2
      · exact Or.inr (List.mem_cons_self x _)
      · rcases ih (a :: seen) hx2 with hs | hdd
        · rcases List.mem_cons.mp hs with rfl | hs2
          · exact Or.inr (List.mem_cons_self x _)
          · exact Or.inl hs2
        · exact Or.inr (List.mem_cons_of_mem a hdd)

theorem uniqDates_mem_of (l : List ℤ) (x : ℤ) (h : x ∈ uniqDates l) : x ∈ l :=
  dedupDates_mem_of l [] x h

theorem uniqDates_mem (l : List ℤ) (x : ℤ) (h : x ∈ l) : x ∈ uniqDates l :=
  (dedupDates_mem x l [] h).resolve_left (List.not_mem_nil x)

end DateDedupLemmas


section KeyMemLemmas

variable {K : Type} [Field K]

/-- Every row of a single-window frame takes its symbol and date from a
row of the sorted input frame. -/
theorem statFrame_key_mem (f : ℕ → List K → List (Option K)) (w : ℕ)
    (s : List (PriceRow K)) (t : StatRow K) (ht : t ∈ statFrame f w s) :
    ∃ r ∈ s, r.symbol = t.symbol ∧ r.date = t.date := by
  obtain ⟨p, hp, hz⟩ := List.mem_flatMap.mp ht
  obtain ⟨r, hr, v, _, he⟩ := mem_zipWith hz
  obtain ⟨sym, _, hps⟩ := List.mem_map.mp hp
  subst he
  rw [← hps] at hr
  have hr2 := List.mem_filter.mp hr
  refine ⟨r, hr2.1, ?_, rfl⟩
  have : r.symbol = sym := by simpa using hr2.2
  rw [this, ← hps]

/-- Every row of an inner join takes its key from a row of the left frame. -/
theorem innerJoinStat_key_mem (a b : List (StatRow K)) (t : StatRow K)
    (ht : t ∈ innerJoinStat a b) :
    ∃ r ∈ a, t.date = r.date ∧ t.symbol = r.symbol := by
  obtain ⟨r, hr, hm⟩ := List.mem_flatMap.mp ht
  obtain ⟨u, _, he⟩ := List.mem_map.mp hm
  exact ⟨r, hr, by rw [← he], by rw [← he]⟩

/-- Every row of a fold of inner joins takes its key from the seed frame. -/
theorem foldl_innerJoinStat_key_mem (fs : List (List (StatRow K))) :
    ∀ (acc : List (StatRow K)) (t : StatRow K), t ∈ fs.foldl innerJoinStat acc →
      ∃ r ∈ acc, t.date = r.date ∧ t.symbol = r.symbol := by
  induction fs with
  | nil => exact fun acc t ht => ⟨t, ht, rfl, rfl⟩
  | cons g fs ih =>
    intro acc t ht
    obtain ⟨u, hu, hd, hs⟩ := ih (innerJoinStat acc g) t ht
    obtain ⟨r, hr, hd2, hs2⟩ := innerJoinStat_key_mem acc g u hu
    exact ⟨r, hr, hd.trans hd2, hs.trans hs2⟩

/-- Every computed statistics row takes its symbol and date from an input
price row. -/
theorem computeWindowed_key_mem (f : ℕ → List K → List (Option K)) (ws : List ℕ)
    (rows : List (PriceRow K)) (t : StatRow K) (ht : t ∈ computeWindowed f ws rows) :
    ∃ r ∈ rows, r.symbol = t.symbol ∧ r.date = t.date := by
  cases ws with
  | nil => cases ht
  | cons w rest =>
    obtain ⟨u, hu, hd, hs⟩ := foldl_innerJoinStat_key_mem _ _ _ ht
    obtain ⟨r, hr, hsym, hdate⟩ := statFrame_key_mem f w (sortPrice rows) u hu
    exact ⟨r, ((List.perm_insertionSort rowLe rows).mem_iff).mp hr,
      by rw [hsym, ← hs], by rw [hdate, ← hd]⟩

end KeyMemLemmas

/-- C3: `merge_signals` sees price history only through the rows dated at
or before the batch run date, and the statistics it attaches are taken at
the latest date present in the computed statistics, which never exceeds
the run date: (1) two price tables agreeing on the rows dated `≤ run_date`
produce identical results (identical output, or identically raised
`ValueError` on the multi-date truthiness path); (2) when a date is
selected, it is the maximum of the dates present in the computed
statistics and is `≤ run_date`; (3) when a date is selected, the output
is exactly the two left joins against the statistics rows at that date. -/
theorem merge_signals_no_lookahead {K : Type} [Field K] {α : Type}
    (rlog rsqrt : K → K) (cfg : AnalyzerCfg) (S : List (SignalRow α))
    (P₁ P₂ : List (PriceRow K)) (hS : S ≠ [])
    (hagree : P₁.filter (fun r => r.date ≤ runDateOf S) =
      P₂.filter (fun r => r.date ≤ runDateOf S)) :
    mergeSignals rlog rsqrt cfg S P₁ = mergeSignals rlog rsqrt cfg S P₂ ∧
    (∀ L, statDateUsed rlog rsqrt cfg S P₁ = some L →
      L ≤ runDateOf S ∧
      L ∈ (computeRealizedVol rlog rsqrt cfg.realized_vol_windows
        (P₁.filter (fun r => r.date ≤ runDateOf S))).map (·.date) ∧
      ∀ u ∈ (computeRealizedVol rlog rsqrt cfg.realized_vol_windows
        (P₁.filter (fun r => r.date ≤ runDateOf S))).map (·.date), u ≤ L) ∧
    (∀ L, statDateUsed rlog rsqrt cfg S P₁ = some L →
      mergeSignals rlog rsqrt cfg S P₁ =
        .ok (.inr (enrichedAt rlog rsqrt cfg S P₁ L))) := by
  have hSe : ¬(S.isEmpty = true) := fun hc => hS (List.isEmpty_iff.mp hc)
  refine ⟨?_, ?_, ?_⟩
  · simp only [mergeSignals]
    by_cases h1 : P₁.isEmpty = true
    · have hP1 : P₁ = [] := List.isEmpty_iff.mp h1
      have h2 : P₂.filter (fun r => r.date ≤ runDateOf S) = [] := by
        rw [← hagree, hP1]; rfl
      by_cases h3 : P₂.isEmpty = true
      · rw [if_pos (Or.inr h1), if_pos (Or.inr h3)]
      · rw [if_pos (Or.inr h1),
          if_neg (show ¬(S.isEmpty = true ∨ P₂.isEmpty = true) from
            fun hc => hc.elim hSe h3), h2]
        simp
    · by_cases h3 : P₂.isEmpty = true
      · have hP2 : P₂ = [] := List.isEmpty_iff.mp h3
        have h2 : P₁.filter (fun r => r.date ≤ runDateOf S) = [] := by
          rw [hagree, hP2]; rfl
        rw [if_pos (Or.inr h3),
          if_neg (show ¬(S.isEmpty = true ∨ P₁.isEmpty = true) from
            fun hc => hc.elim hSe h1), h2]
        simp
      · rw [if_neg (show ¬(S.isEmpty = true ∨ P₁.isEmpty = true) from
            fun hc => hc.elim hSe h1),
          if_neg (show ¬(S.isEmpty = true ∨ P₂.isEmpty = true) from
            fun hc => hc.elim hSe h3), hagree]
  · intro L hL
    simp only [statDateUsed] at hL
    by_cases h1 : (S.isEmpty = true ∨ P₁.isEmpty = true)
    · rw [if_pos h1] at hL
      cases hL
    · rw [if_neg h1] at hL
      by_cases h2 : (P₁.filter (fun r => r.date ≤ runDateOf S)).isEmpty = true
      · rw [if_pos h2] at hL
        cases hL
      · rw [if_neg h2] at hL
        obtain ⟨avail, hav⟩ : ∃ x, (if (computeRealizedVol rlog rsqrt
            cfg.realized_vol_windows
            (P₁.filter (fun r => r.date ≤ runDateOf S))).isEmpty = true then []
            else uniqDates ((computeRealizedVol rlog rsqrt cfg.realized_vol_windows
              (P₁.filter (fun r => r.date ≤ runDateOf S))).map (fun t => t.date))) = x :=
          ⟨_, rfl⟩
        rw [hav] at hL
        cases avail with
        | nil => simp at hL
        | cons d0 rest =>
          cases rest with
          | cons d1 rest2 => simp at hL
          | nil =>
            dsimp only at hL
            by_cases hz : d0 = 0
            · rw [if_pos hz] at hL
              cases hL
            · rw [if_neg hz] at hL
              have hLd : d0 = L := Option.some.inj hL
              have hrvne : ¬((computeRealizedVol rlog rsqrt cfg.realized_vol_windows
                  (P₁.filter (fun r => r.date ≤ runDateOf S))).isEmpty = true) := by
                intro hc
                rw [if_pos hc] at hav
                cases hav
              rw [if_neg hrvne] at hav
              have hmem : d0 ∈ (computeRealizedVol rlog rsqrt cfg.realized_vol_windows
                  (P₁.filter (fun r => r.date ≤ runDateOf S))).map (fun t => t.date) :=
                uniqDates_mem_of _ d0 (by rw [hav]; exact List.mem_cons_self d0 [])
              refine ⟨?_, ?_, ?_⟩
              · obtain ⟨t, ht, htd⟩ := List.mem_map.mp hmem
                obtain ⟨r, hr, _, hrd⟩ := computeWindowed_key_mem _ _ _ t ht
                have hrle := (List.mem_filter.mp hr).2
                rw [← hLd, ← htd, ← hrd]
                simpa using hrle
              · rw [← hLd]
                exact hmem
              · intro u hu
                have hu2 : u ∈ uniqDates ((computeRealizedVol rlog rsqrt
                    cfg.realized_vol_windows
                    (P₁.filter (fun r => r.date ≤ runDateOf S))).map (fun t => t.date)) :=
                  uniqDates_mem _ u hu
                rw [hav] at hu2
                have hud : u = d0 := by simpa using hu2
                rw [hud]
                exact le_of_eq hLd
  · intro L hL
    simp only [statDateUsed] at hL
    by_cases h1 : (S.isEmpty = true ∨ P₁.isEmpty = true)
    · rw [if_pos h1] at hL
      cases hL
    · rw [if_neg h1] at hL
      by_cases h2 : (P₁.filter (fun r => r.date ≤ runDateOf S)).isEmpty = true
      · rw [if_pos h2] at hL
        cases hL
      · rw [if_neg h2] at hL
        obtain ⟨avail, hav⟩ : ∃ x, (if (computeRealizedVol rlog rsqrt
            cfg.realized_vol_windows
            (P₁.filter (fun r => r.date ≤ runDateOf S))).isEmpty = true then []
            else uniqDates ((computeRealizedVol rlog rsqrt cfg.realized_vol_windows
              (P₁.filter (fun r => r.date ≤ runDateOf S))).map (fun t => t.date))) = x :=
          ⟨_, rfl⟩
        rw [hav] at hL
        cases avail with
        | nil => simp at hL
        | cons d0 rest =>
          cases rest with
          | cons d1 rest2 => simp at hL
          | nil =>
            dsimp only at hL
            by_cases hz : d0 = 0
            · rw [if_pos hz] at hL
              cases hL
            · rw [if_neg hz] at hL
              have hLval : listMax [d0] = L := Option.some.inj hL
              simp only [mergeSignals, enrichedAt]
              rw [if_neg h1, if_neg h2, hav]
              dsimp only
              rw [if_neg hz, hLval]

/-- Witness for C3: two price tables agreeing at or before the run date
but differing afterwards. -/
theorem merge_signals_no_lookahead_witness :
    (([⟨5, "A", 0⟩] : List (SignalRow ℕ)) ≠ [] ∧
      ([⟨"A", 4, 1⟩, ⟨"A", 9, 2⟩] : List (PriceRow ℚ)).filter
          (fun r => r.date ≤ runDateOf ([⟨5, "A", 0⟩] : List (SignalRow ℕ))) =
        ([⟨"A", 4, 1⟩] : List (PriceRow ℚ)).filter
          (fun r => r.date ≤ runDateOf ([⟨5, "A", 0⟩] : List (SignalRow ℕ)))) ∧
    mergeSignals (id : ℚ → ℚ) id defaultCfg [(⟨5, "A", 0⟩ : SignalRow ℕ)]
        [⟨"A", 4, 1⟩, ⟨"A", 9, 2⟩] =
      mergeSignals (id : ℚ → ℚ) id defaultCfg [(⟨5, "A", 0⟩ : SignalRow ℕ)]
        [⟨"A", 4, 1⟩] :=
  have h1 : ([⟨5, "A", 0⟩] : List (SignalRow ℕ)) ≠ [] := by decide
  have h2 : ([⟨"A", 4, 1⟩, ⟨"A", 9, 2⟩] : List (PriceRow ℚ)).filter
          (fun r => r.date ≤ runDateOf ([⟨5, "A", 0⟩] : List (SignalRow ℕ))) =
        ([⟨"A", 4, 1⟩] : List (PriceRow ℚ)).filter
          (fun r => r.date ≤ runDateOf ([⟨5, "A", 0⟩] : List (SignalRow ℕ))) := by decide
  ⟨⟨h1, h2⟩, (merge_signals_no_lookahead id id defaultCfg _ _ _ h1 h2).1⟩

section TickerLemmas

/-- Facts about digit characters with value below ten. -/
theorem dChar_facts (d : ℕ) (h : d < 10) :
    (dChar d).isDigit = true ∧ isPySpace (dChar d) = false ∧ digitVal (dChar d) = d ∧
    dChar d ≠ '+' ∧ dChar d ≠ '-' ∧ dChar d ≠ '.' := by
  interval_cases d <;> exact ⟨rfl, rfl, rfl, by decide, by decide, by decide⟩

/-- Digit-run consumption on a pure digit string takes everything. -/
theorem moreDigitsU_map_dChar (ds : List ℕ) (h : ∀ d ∈ ds, d < 10) :
    moreDigitsU (ds.map dChar) = (ds, []) := by
  induction ds with
  | nil => rfl
  | cons d ds ih =>
    have hd := dChar_facts d (h d (List.mem_cons_self d ds))
    have ih2 := ih (fun x hx => h x (List.mem_cons_of_mem d hx))
    rw [List.map_cons, moreDigitsU.eq_def]
    dsimp only
    rw [if_pos hd.1, ih2, hd.2.2.1]

/-- Digit-run consumption on a pure digit string takes everything. -/
theorem takeDigitsU_map_dChar (ds : List ℕ) (h : ∀ d ∈ ds, d < 10) :
    takeDigitsU (ds.map dChar) = (ds, []) := by
  cases ds with
  | nil => rfl
  | cons d ds =>
    have hd := dChar_facts d (h d (List.mem_cons_self d ds))
    have hm := moreDigitsU_map_dChar ds (fun x hx => h x (List.mem_cons_of_mem d hx))
    rw [List.map_cons, takeDigitsU.eq_def]
    dsimp only
    rw [if_pos hd.1, hm, hd.2.2.1]

/-- `dropWhile` is the identity when the head does not satisfy the test. -/
theorem dropWhile_eq_self_of_head {p : Char → Bool} (l : List Char)
    (h : ∀ c, l.head? = some c → p c = false) : l.dropWhile p = l := by
  cases l with
  | nil => rfl
  | cons c cs =>
    rw [List.dropWhile_cons, if_neg (by simp [h c rfl])]

/-- `strip` is the identity when both ends are non-whitespace. -/
theorem stripChars_eq_self (l : List Char)
    (h1 : ∀ c, l.head? = some c → isPySpace c = false)
    (h2 : ∀ c, l.getLast? = some c → isPySpace c = false) :
    stripChars l = l := by
  unfold stripChars
  rw [dropWhile_eq_self_of_head l h1,
    dropWhile_eq_self_of_head l.reverse
      (fun c hc => h2 c (by rwa [List.head?_reverse] at hc)),
    List.reverse_reverse]

/-- The last element reported by `getLast?` is a member. -/
theorem mem_of_getLast?Opt {α : Type} {l : List α} {c : α} (h : l.getLast? = some c) :
    c ∈ l := by
  induction l with
  | nil => cases h
  | cons a t ih =>
    cases t with
    | nil =>
      simp only [List.getLast?_singleton, Option.some.injEq] at h
      rw [← h]
      exact List.mem_cons_self a []
    | cons b t2 =>
      rw [List.getLast?_cons_cons] at h
      exact List.mem_cons_of_mem a (ih h)

/-- `takeWhile` over a satisfied prefix followed by a failing element. -/
theorem takeWhile_append_stop {p : Char → Bool} (u v : List Char) (c : Char)
    (hu : ∀ x ∈ u, p x = true) (hc : p c = false) :
    (u ++ c :: v).takeWhile p = u := by
  induction u with
  | nil => rw [List.nil_append, List.takeWhile_cons, if_neg (by simp [hc])]
  | cons a u ih =>
    rw [List.cons_append, List.takeWhile_cons,
      if_pos (hu a (List.mem_cons_self a u)),
      ih (fun x hx => hu x (List.mem_cons_of_mem a hx))]

/-- Parsing a two-digit zero-padded rendering recovers the value. -/
theorem pyInt_pad2 (x : ℕ) (h : x < 100) : pyInt (pad2 x) = some (x : ℤ) := by
  have h10 : (0:ℕ) < 10 := by norm_num
  have ha := dChar_facts (x / 10 % 10) (Nat.mod_lt _ h10)
  have hb := dChar_facts (x % 10) (Nat.mod_lt _ h10)
  have hlt : ∀ d ∈ [x / 10 % 10, x % 10], d < 10 := by
    intro d hd
    rcases List.mem_cons.mp hd with rfl | hd2
    · exact Nat.mod_lt _ h10
    · rcases List.mem_cons.mp hd2 with rfl | hd3
      · exact Nat.mod_lt _ h10
      · cases hd3
  have hstrip : stripChars (pad2 x) = pad2 x := by
    apply stripChars_eq_self
    · intro c hc
      simp only [pad2, List.head?_cons, Option.some.injEq] at hc
      rw [← hc]
      exact ha.2.1
    · intro c hc
      have := mem_of_getLast?Opt hc
      simp only [pad2, List.mem_cons] at this
      rcases this with rfl | this
      · exact ha.2.1
      · rcases this with rfl | this
        · exact hb.2.1
        · cases this
  have hstrip2 : stripChars [dChar (x / 10 % 10), dChar (x % 10)] =
      [dChar (x / 10 % 10), dChar (x % 10)] := hstrip
  have hud : pyUDigits ([x / 10 % 10, x % 10].map dChar) =
      some (natOfDigits [x / 10 % 10, x % 10]) := by
    simp only [pyUDigits, takeDigitsU_map_dChar _ hlt]
    rfl
  have hud2 : pyUDigits [dChar (x / 10 % 10), dChar (x % 10)] =
      some (natOfDigits [x / 10 % 10, x % 10]) := hud
  have hval2 : natOfDigits [x / 10 % 10, x % 10] = x := by
    simp only [natOfDigits, List.foldl]
    omega
  show pyInt [dChar (x / 10 % 10), dChar (x % 10)] = some (x : ℤ)
  rw [pyInt.eq_def, hstrip2]
  dsimp only
  rw [if_neg ha.2.2.2.1, if_neg ha.2.2.2.2.1, hud2]
  simp [hval2]

/-- Parsing a pure digit string as a float recovers the digit value. -/
theorem pyFloat_map_dChar (ds : List ℕ) (h : ∀ d ∈ ds, d < 10) (hne : ds ≠ []) :
    pyFloat (ds.map dChar) = some ((natOfDigits ds : ℕ) : ℚ) := by
  obtain ⟨d0, ds2, rfl⟩ := List.exists_cons_of_ne_nil hne
  have h0 := dChar_facts d0 (h d0 (List.mem_cons_self _ _))
  have hstrip : stripChars ((d0 :: ds2).map dChar) = (d0 :: ds2).map dChar := by
    apply stripChars_eq_self
    · intro c hc
      simp only [List.map_cons, List.head?_cons, Option.some.injEq] at hc
      rw [← hc]
      exact h0.2.1
    · intro c hc
      have hcm := mem_of_getLast?Opt hc
      obtain ⟨d, hd, rfl⟩ := List.mem_map.mp hcm
      exact (dChar_facts d (h d hd)).2.1
  have hstrip2 : stripChars (dChar d0 :: ds2.map dChar) =
      dChar d0 :: ds2.map dChar := hstrip
  have htd : takeDigitsU (dChar d0 :: ds2.map dChar) = (d0 :: ds2, []) :=
    takeDigitsU_map_dChar (d0 :: ds2) h
  have hbody : pyFloatBody (dChar d0 :: ds2.map dChar) =
      some ((natOfDigits (d0 :: ds2) : ℕ) : ℚ) := by
    simp only [pyFloatBody, htd]
    rfl
  rw [List.map_cons, pyFloat.eq_def, hstrip2]
  dsimp only
  rw [if_neg h0.2.2.2.1, if_neg h0.2.2.2.2.1, hbody]

/-- The eight-digit strike field rendered from `n` as a digit list. -/
theorem fieldDigits8_eq_map (n : ℕ) :
    fieldDigits 8 n = [n / 10 ^ 7 % 10, n / 10 ^ 6 % 10, n / 10 ^ 5 % 10,
      n / 10 ^ 4 % 10, n / 10 ^ 3 % 10, n / 10 ^ 2 % 10, n / 10 ^ 1 % 10,
      n / 10 ^ 0 % 10].map dChar := rfl

/-- The digits of the eight-digit strike field are digits. -/
theorem fieldDigits8_bounds (n : ℕ) :
    ∀ d ∈ [n / 10 ^ 7 % 10, n / 10 ^ 6 % 10, n / 10 ^ 5 % 10, n / 10 ^ 4 % 10,
      n / 10 ^ 3 % 10, n / 10 ^ 2 % 10, n / 10 ^ 1 % 10, n / 10 ^ 0 % 10], d < 10 := by
  intro d hd
  simp only [List.mem_cons, List.not_mem_nil, or_false] at hd
  rcases hd with rfl | rfl | rfl | rfl | rfl | rfl | rfl | rfl <;>
    exact Nat.mod_lt _ (by norm_num)

/-- Reassembling the eight strike digits recovers the value. -/
theorem natOfDigits_fieldDigits8 (n : ℕ) (h : n < 10 ^ 8) :
    natOfDigits [n / 10 ^ 7 % 10, n / 10 ^ 6 % 10, n / 10 ^ 5 % 10, n / 10 ^ 4 % 10,
      n / 10 ^ 3 % 10, n / 10 ^ 2 % 10, n / 10 ^ 1 % 10, n / 10 ^ 0 % 10] = n := by
  simp only [natOfDigits, List.foldl]
  norm_num
  omega

/-- Parsing the rendered eight-digit strike field recovers the value. -/
theorem pyFloat_fieldDigits (n : ℕ) (h : n < 10 ^ 8) :
    pyFloat (fieldDigits 8 n) = some ((n : ℕ) : ℚ) := by
  rw [fieldDigits8_eq_map, pyFloat_map_dChar _ (fieldDigits8_bounds n) (by simp),
    natOfDigits_fieldDigits8 n h]

/-- Truncating the rational image of a natural number recovers it. -/
theorem ratTruncToNat_natCast (n : ℕ) : ratTruncToNat ((n : ℕ) : ℚ) = n := by
  rw [ratTruncToNat, Rat.num_natCast, Rat.den_natCast, Int.toNat_natCast, Nat.div_one]

/-- No month has more than 31 days. -/
theorem daysInMonth_le31 (y m : ℤ) : daysInMonth y m ≤ 31 := by
  unfold daysInMonth
  split_ifs <;> norm_num

end TickerLemmas

/-- C4 (amended): decoding a well-formed 21-character ticker — underlying
of one to five non-whitespace characters space-padded to six, six valid
`YYMMDD` digits, a type character and an **eight**-digit scaled strike —
and re-encoding it with an eight-digit strike field reproduces the
original string exactly; the decode recovers underlying, expiry
`2000+YY`, type character and strike `field/1000`. -/
theorem ticker_round_trip (u : List Char) (yy mm dd : ℕ) (t : Char) (n : ℕ)
    (hu0 : u ≠ []) (hu5 : u.length ≤ 5) (hus : ∀ c ∈ u, isPySpace c = false)
    (hyy : yy < 100) (hval : pyValidDate (2000 + (yy : ℤ)) (mm : ℤ) (dd : ℤ) = true)
    (ht : t = 'C' ∨ t = 'P') (hn : n < 10 ^ 8) :
    decodeOption (mkTicker u yy mm dd t n) =
      some ⟨u, ⟨2000 + (yy : ℤ), (mm : ℤ), (dd : ℤ)⟩, t, ((n : ℕ) : ℚ) / 1000⟩ ∧
    encodeOption 8 ⟨u, ⟨2000 + (yy : ℤ), (mm : ℤ), (dd : ℤ)⟩, t, ((n : ℕ) : ℚ) / 1000⟩ =
      mkTicker u yy mm dd t n := by
  have hP : (1 : ℤ) ≤ 2000 + (yy : ℤ) ∧ 2000 + (yy : ℤ) ≤ 9999 ∧ (1 : ℤ) ≤ (mm : ℤ) ∧
      (mm : ℤ) ≤ 12 ∧ (1 : ℤ) ≤ (dd : ℤ) ∧
      (dd : ℤ) ≤ daysInMonth (2000 + (yy : ℤ)) (mm : ℤ) := of_decide_eq_true hval
  have hdd31 := daysInMonth_le31 (2000 + (yy : ℤ)) (mm : ℤ)
  have hmm100 : mm < 100 := by omega
  have hdd100 : dd < 100 := by omega
  obtain ⟨c0, u2, rfl⟩ := List.exists_cons_of_ne_nil hu0
  set u := c0 :: u2 with hu
  set M := mkTicker u yy mm dd t n with hMdef
  have hMr : M = padTo6 u ++ (pad2 yy ++ (pad2 mm ++ (pad2 dd ++
      ([t] ++ fieldDigits 8 n)))) := by
    simp [hMdef, mkTicker, List.append_assoc]
  have hlen6 : (padTo6 u).length = 6 := by
    simp only [padTo6, List.length_append, List.length_replicate]
    omega
  have hhead : M.head? = some c0 := by
    rw [hMr]
    rfl
  have hlast8 : (fieldDigits 8 n).getLast? = some (dChar (n / 10 ^ 0 % 10)) := rfl
  have hlast : M.getLast? = some (dChar (n / 10 ^ 0 % 10)) := by
    rw [hMdef, mkTicker, List.getLast?_append, hlast8]
    rfl
  have hstrip : stripChars M = M := by
    apply stripChars_eq_self
    · intro c hc
      rw [hhead] at hc
      rw [← Option.some.inj hc]
      exact hus c0 (List.mem_cons_self c0 u2)
    · intro c hc
      rw [hlast] at hc
      rw [← Option.some.inj hc]
      exact (dChar_facts _ (Nat.mod_lt _ (by norm_num))).2.1
  have hdrop6 : M.drop 6 = pad2 yy ++ (pad2 mm ++ (pad2 dd ++
      ([t] ++ fieldDigits 8 n))) := by
    rw [hMr, show (6 : ℕ) = (padTo6 u).length from hlen6.symm, List.drop_left]
  have htail : pad2 yy ++ (pad2 mm ++ (pad2 dd ++ ([t] ++ fieldDigits 8 n))) =
      dChar (yy / 10 % 10) :: dChar (yy % 10) :: dChar (mm / 10 % 10) ::
      dChar (mm % 10) :: dChar (dd / 10 % 10) :: dChar (dd % 10) ::
      ([t] ++ fieldDigits 8 n) := rfl
  have htake6 : (M.drop 6).take 6 = dChar (yy / 10 % 10) :: dChar (yy % 10) ::
      dChar (mm / 10 % 10) :: dChar (mm % 10) :: dChar (dd / 10 % 10) ::
      dChar (dd % 10) :: [] := by
    rw [hdrop6, htail]
    rfl
  have hc1 : ((M.drop 6).take 6).take 2 = pad2 yy := by rw [htake6]; rfl
  have hc2 : (((M.drop 6).take 6).drop 2).take 2 = pad2 mm := by rw [htake6]; rfl
  have hc3 : (((M.drop 6).take 6).drop 4).take 2 = pad2 dd := by rw [htake6]; rfl
  have hlen12 : (padTo6 u ++ (pad2 yy ++ (pad2 mm ++ pad2 dd))).length = 12 := by
    simp only [List.length_append, hlen6, pad2, List.length_cons, List.length_nil]
  have hM12 : M = (padTo6 u ++ (pad2 yy ++ (pad2 mm ++ pad2 dd))) ++
      (t :: fieldDigits 8 n) := by
    simp [hMdef, mkTicker, List.append_assoc]
  have hget12 : M.get? 12 = some t := by
    rw [List.get?_eq_getElem?, hM12,
      List.getElem?_append_right (by rw [hlen12]), hlen12]
    rfl
  have hM13 : M = ((padTo6 u ++ (pad2 yy ++ (pad2 mm ++ pad2 dd))) ++ [t]) ++
      fieldDigits 8 n := by
    simp [hMdef, mkTicker, List.append_assoc]
  have hlen13 : ((padTo6 u ++ (pad2 yy ++ (pad2 mm ++ pad2 dd))) ++ [t]).length = 13 := by
    simp only [List.length_append, hlen12, List.length_cons, List.length_nil]
  have hdrop13 : M.drop 13 = fieldDigits 8 n := by
    rw [hM13, show (13 : ℕ) = ((padTo6 u ++ (pad2 yy ++ (pad2 mm ++ pad2 dd))) ++
      [t]).length from hlen13.symm, List.drop_left]
  have hcore : parseCore M = .ok (⟨2000 + (yy : ℤ), (mm : ℤ), (dd : ℤ)⟩, t,
      ((n : ℕ) : ℚ) / 1000) := by
    simp only [parseCore, hstrip, hc1, hc2, hc3, pyInt_pad2 yy hyy,
      pyInt_pad2 mm hmm100, pyInt_pad2 dd hdd100, hval, if_true, hget12, hdrop13,
      pyFloat_fieldDigits n hn]
  have hsplit : pySplitFirst M = u := by
    have hrep : List.replicate (6 - u.length) ' ' =
        ' ' :: List.replicate (5 - u.length) ' ' := by
      rw [show 6 - u.length = (5 - u.length) + 1 from by omega, List.replicate_succ]
    have hMsplit : M = u ++ (' ' :: (List.replicate (5 - u.length) ' ' ++
        (pad2 yy ++ (pad2 mm ++ (pad2 dd ++ ([t] ++ fieldDigits 8 n)))))) := by
      rw [hMr]
      simp [padTo6, hrep, List.append_assoc]
    unfold pySplitFirst
    rw [hstrip, hMsplit]
    apply takeWhile_append_stop
    · intro x hx
      simp [hus x hx]
    · decide
  refine ⟨?_, ?_⟩
  · simp only [decodeOption, parse_option_symbol, hcore, hsplit]
  · simp only [encodeOption]
    rw [show ((2000 + (yy : ℤ)) - 2000).toNat = yy from by omega,
      Int.toNat_natCast, Int.toNat_natCast,
      div_mul_cancel₀ ((n : ℕ) : ℚ) (show (1000 : ℚ) ≠ 0 by norm_num),
      ratTruncToNat_natCast]
    rfl

/-- Witness for C4 at the concrete constituents of a well-formed ticker
with a two-character underlying. -/
theorem ticker_round_trip_witness :
    ((['A', 'B'] : List Char) ≠ [] ∧ (['A', 'B'] : List Char).length ≤ 5 ∧
      (∀ c ∈ (['A', 'B'] : List Char), isPySpace c = false) ∧ 24 < 100 ∧
      pyValidDate (2000 + ((24 : ℕ) : ℤ)) ((8 : ℕ) : ℤ) ((23 : ℕ) : ℤ) = true ∧
      ('C' = 'C' ∨ 'C' = 'P') ∧ 165000 < 10 ^ 8) ∧
    (decodeOption (mkTicker ['A', 'B'] 24 8 23 'C' 165000) =
      some ⟨['A', 'B'], ⟨2000 + ((24 : ℕ) : ℤ), ((8 : ℕ) : ℤ), ((23 : ℕ) : ℤ)⟩, 'C',
        ((165000 : ℕ) : ℚ) / 1000⟩ ∧
    encodeOption 8 ⟨['A', 'B'], ⟨2000 + ((24 : ℕ) : ℤ), ((8 : ℕ) : ℤ), ((23 : ℕ) : ℤ)⟩,
        'C', ((165000 : ℕ) : ℚ) / 1000⟩ = mkTicker ['A', 'B'] 24 8 23 'C' 165000) :=
  ⟨⟨by decide, by decide, by decide, by decide, by decide, Or.inl rfl, by norm_num⟩,
    ticker_round_trip ['A', 'B'] 24 8 23 'C' 165000 (by decide) (by decide)
      (by decide) (by decide) (by decide) (Or.inl rfl) (by norm_num)⟩

/-- C4 counterexample: with the seven-digit strike field the spec
describes, re-encoding the decoded spec example
`ALGN  240823C00165000` cannot reproduce the input — the layout only
adds up to 20 characters against the 21 of the ticker (the strike field
actually has eight digits). -/
theorem ticker_seven_digit_strike_cex :
    decodeOption algnTicker =
      some ⟨"ALGN".data, ⟨2024, 8, 23⟩, 'C', ((165000 : ℕ) : ℚ) / 1000⟩ ∧
    ∀ o : OptionSym, decodeOption algnTicker = some o →
      encodeOption 7 o ≠ algnTicker := by
  refine ⟨rfl, ?_⟩
  intro o ho
  have ho2 : o = ⟨"ALGN".data, ⟨2024, 8, 23⟩, 'C', ((165000 : ℕ) : ℚ) / 1000⟩ :=
    Option.some.inj (by rw [← ho]; rfl)
  intro hc
  have hlen := congrArg List.length hc
  rw [ho2] at hlen
  have h20 : (encodeOption 7 ⟨"ALGN".data, ⟨2024, 8, 23⟩, 'C',
      ((165000 : ℕ) : ℚ) / 1000⟩).length = 20 := by
    simp [encodeOption, padTo6, pad2, fieldDigits, List.length_append]
  have h21 : algnTicker.length = 21 := by decide
  rw [h20, h21] at hlen
  cases hlen

section SeriesLengths

variable {K : Type} [Field K]

theorem pctChange_length (cs : List K) : (pctChange cs).length = cs.length := by
  simp [pctChange]

theorem logRetSeries_length (rlog : K → K) (cs : List K) :
    (logRetSeries rlog cs).length = cs.length := by
  simp [logRetSeries, pctChange_length]

theorem rollingStd_length (rsqrt : K → K) (w : ℕ) (xs : List (Option K)) :
    (rollingStd rsqrt w xs).length = xs.length := by
  simp [rollingStd]

theorem realizedVolSeries_length (rlog rsqrt : K → K) (w : ℕ) (cs : List K) :
    (realizedVolSeries rlog rsqrt w cs).length = cs.length := by
  simp [realizedVolSeries, rollingStd_length, logRetSeries_length]

theorem momentumSeries_length (w : ℕ) (cs : List K) :
    (momentumSeries w cs).length = cs.length := by
  simp [momentumSeries]

end SeriesLengths

section DedupLemmas

theorem dedupGo_spec (l : List String) : ∀ seen : List String,
    (dedupGo seen l).Nodup ∧ ∀ x ∈ dedupGo seen l, x ∉ seen ∧ x ∈ l := by
  induction l with
  | nil => intro seen; exact ⟨List.nodup_nil, by simp [dedupGo]⟩
  | cons a t ih =>
    intro seen
    rw [dedupGo]
    by_cases ha : a ∈ seen
    · rw [if_pos ha]
      obtain ⟨h1, h2⟩ := ih seen
      exact ⟨h1, fun x hx => ⟨(h2 x hx).1, List.mem_cons_of_mem a (h2 x hx).2⟩⟩
    · rw [if_neg ha]
      obtain ⟨h1, h2⟩ := ih (a :: seen)
      refine ⟨List.nodup_cons.mpr ⟨?_, h1⟩, ?_⟩
      · intro hc
        exact (h2 a hc).1 (List.mem_cons_self a seen)
      · intro x hx
        rcases List.mem_cons.mp hx with rfl | hx2
        · exact ⟨ha, List.mem_cons_self x t⟩
        · exact ⟨fun hc => (h2 x hx2).1 (List.mem_cons_of_mem a hc),
            List.mem_cons_of_mem a (h2 x hx2).2⟩

theorem dedupGo_mem_of (l : List String) : ∀ (seen : List String) (x : String),
    x ∈ l → x ∉ seen → x ∈ dedupGo seen l := by
  induction l with
  | nil => intro seen x hx; cases hx
  | cons a t ih =>
    intro seen x hx hs
    rw [dedupGo]
    by_cases ha : a ∈ seen
    · rw [if_pos ha]
      rcases List.mem_cons.mp hx with rfl | hx2
      · exact absurd ha hs
      · exact ih seen x hx2 hs
    · rw [if_neg ha]
      rcases List.mem_cons.mp hx with rfl | hx2
      · exact List.mem_cons_self x _
      · by_cases hxa : x = a
        · rw [hxa]; exact List.mem_cons_self a _
        · exact List.mem_cons_of_mem a (ih (a :: seen) x hx2 (by
            intro hc
            rcases List.mem_cons.mp hc with hc2 | hc2
            · exact hxa hc2
            · exact hs hc2))

theorem uniqSyms_nodup (l : List String) : (uniqSyms l).Nodup :=
  (dedupGo_spec l []).1

theorem uniqSyms_mem (l : List String) (x : String) : x ∈ uniqSyms l ↔ x ∈ l :=
  ⟨fun h => ((dedupGo_spec l []).2 x h).2,
    fun h => dedupGo_mem_of l [] x h (List.not_mem_nil x)⟩

end DedupLemmas

section GroupPerm

variable {β : Type}

/-- Concatenating the per-key filters over a duplicate-free covering key
list is a permutation of the original list. -/
theorem flatMap_filter_key_perm (key : β → String) :
    ∀ (ks : List String) (l : List β), ks.Nodup → (∀ r ∈ l, key r ∈ ks) →
      (ks.flatMap (fun s => l.filter (fun r => key r == s))).Perm l := by
  intro ks
  induction ks with
  | nil =>
    intro l _ hc
    have : l = [] := List.eq_nil_iff_forall_not_mem.mpr
      (fun r hr => absurd (hc r hr) (List.not_mem_nil _))
    rw [this]
    rfl
  | cons s ks ih =>
    intro l hn hc
    have hs : s ∉ ks := (List.nodup_cons.mp hn).1
    have hks : ks.Nodup := (List.nodup_cons.mp hn).2
    rw [List.flatMap_cons]
    have hsub : ∀ s2 ∈ ks, l.filter (fun r => key r == s2) =
        (l.filter (fun r => !(key r == s))).filter (fun r => key r == s2) := by
      intro s2 hs2
      rw [List.filter_filter]
      apply List.filter_congr
      intro r _
      by_cases h2 : (key r == s2) = true
      · have : key r = s2 := by simpa using h2
        have hneq : ¬(key r == s) = true := by
          simp only [beq_iff_eq]
          rw [this]
          intro hc2
          exact hs (hc2 ▸ hs2)
        simp [h2, hneq]
      · simp [h2]
    rw [List.flatMap_congr hsub]
    have ih2 := ih (l.filter (fun r => !(key r == s))) hks (by
      intro r hr
      obtain ⟨hr1, hr2⟩ := List.mem_filter.mp hr
      rcases List.mem_cons.mp (hc r hr1) with h3 | h3
      · exfalso
        simp only [Bool.not_eq_true', beq_eq_false_iff_ne, ne_eq] at hr2
        exact hr2 h3
      · exact h3)
    exact (List.Perm.append_left _ ih2).trans (List.filter_append_perm _ l)

end GroupPerm

section GroupedRowsLemmas

variable {K : Type} [Field K]

theorem groupedRows_join_perm (l : List (PriceRow K)) :
    ((groupedRows l).flatMap (fun p => p.2)).Perm l := by
  unfold groupedRows
  rw [List.flatMap_map]
  exact flatMap_filter_key_perm (fun r => r.symbol) (uniqSyms (l.map (·.symbol))) l
    (uniqSyms_nodup _)
    (fun r hr => (uniqSyms_mem _ _).mpr (List.mem_map.mpr ⟨r, hr, rfl⟩))

theorem groupedRows_group_symbol (l : List (PriceRow K))
    (p : String × List (PriceRow K)) (hp : p ∈ groupedRows l) :
    ∀ r ∈ p.2, r.symbol = p.1 := by
  obtain ⟨s, _, rfl⟩ := List.mem_map.mp hp
  intro r hr
  have := (List.mem_filter.mp hr).2
  simpa using this

end GroupedRowsLemmas

section ZipWithHelpers

theorem zipWith_flatMap_fuse {α β γ δ : Type} (J : β → γ → δ) (l : List α)
    (F : α → List β) (G : α → List γ) (h : ∀ x ∈ l, (F x).length = (G x).length) :
    List.zipWith J (l.flatMap F) (l.flatMap G) =
      l.flatMap (fun x => List.zipWith J (F x) (G x)) := by
  induction l with
  | nil => rfl
  | cons a l ih =>
    rw [List.flatMap_cons, List.flatMap_cons, List.flatMap_cons,
      List.zipWith_append _ _ _ _ _ (h a (List.mem_cons_self a l)),
      ih (fun x hx => h x (List.mem_cons_of_mem a hx))]

theorem zipWith_first_only {α β γ : Type} (g : α → γ) :
    ∀ (as : List α) (bs : List β), as.length ≤ bs.length →
      List.zipWith (fun a _ => g a) as bs = as.map g := by
  intro as
  induction as with
  | nil => intro bs _; rfl
  | cons a as ih =>
    intro bs hl
    cases bs with
    | nil => simp at hl
    | cons b bs =>
      rw [List.zipWith_cons_cons, List.map_cons, ih bs (by simpa using hl)]

end ZipWithHelpers

section FrameReduction

variable {K : Type} [Field K]

theorem multiSeriesVals_getElem (f : ℕ → List K → List (Option K)) (ws : List ℕ)
    (cs : List K) (n : ℕ) (hn : n < cs.length) :
    (multiSeriesVals f ws cs)[n]? =
      some (ws.map (fun w => (f w cs).getD n none)) := by
  rw [multiSeriesVals, List.getElem?_map, List.getElem?_range hn]
  rfl

theorem statFrame_map_statKey (f : ℕ → List K → List (Option K))
    (hf : ∀ w cs, (f w cs).length = cs.length) (w : ℕ) (s : List (PriceRow K)) :
    (statFrame f w s).map statKey =
      (groupedRows s).flatMap (fun p => p.2.map (fun r => (p.1, r.date))) := by
  unfold statFrame
  rw [List.map_flatMap]
  apply List.flatMap_congr
  intro p _
  rw [List.map_zipWith]
  have hfun : (fun (r : PriceRow K) (v : Option K) =>
      statKey (StatRow.mk r.date p.1 [v])) =
      (fun (r : PriceRow K) (_ : Option K) => (p.1, r.date)) := rfl
  rw [hfun, zipWith_first_only _ p.2 _ (by rw [hf w (p.2.map (·.close))]; simp)]

theorem multiFrame_map_statKey (f : ℕ → List K → List (Option K)) (ws : List ℕ)
    (s : List (PriceRow K)) :
    (multiFrame f ws s).map statKey =
      (groupedRows s).flatMap (fun p => p.2.map (fun r => (p.1, r.date))) := by
  unfold multiFrame
  rw [List.map_flatMap]
  apply List.flatMap_congr
  intro p _
  rw [List.map_zipWith]
  have hfun : (fun (r : PriceRow K) (vs : List (Option K)) =>
      statKey (StatRow.mk r.date p.1 vs)) =
      (fun (r : PriceRow K) (_ : List (Option K)) => (p.1, r.date)) := rfl
  rw [hfun, zipWith_first_only _ p.2 _ (by simp [multiSeriesVals])]

theorem multiFrame_keys_perm (f : ℕ → List K → List (Option K)) (ws : List ℕ)
    (s : List (PriceRow K)) :
    ((multiFrame f ws s).map statKey).Perm (s.map priceKey) := by
  rw [multiFrame_map_statKey]
  have hcong : (groupedRows s).flatMap (fun p => p.2.map (fun r => (p.1, r.date))) =
      (groupedRows s).flatMap (fun p => p.2.map priceKey) := by
    apply List.flatMap_congr
    intro p hp
    apply List.map_congr_left
    intro r hr
    show (p.1, r.date) = (r.symbol, r.date)
    rw [groupedRows_group_symbol s p hp r hr]
  rw [hcong, ← List.map_flatMap]
  exact (groupedRows_join_perm s).map priceKey

theorem joinPred_iff (r t : StatRow K) :
    ((t.date == r.date && t.symbol == r.symbol) = true) ↔ statKey t = statKey r := by
  simp [statKey, Prod.ext_iff, Bool.and_eq_true, and_comm]

theorem innerJoinStat_aligned : ∀ (a b : List (StatRow K)),
    a.map statKey = b.map statKey → (a.map statKey).Nodup →
    innerJoinStat a b =
      List.zipWith (fun r t => StatRow.mk r.date r.symbol (r.vals ++ t.vals)) a b := by
  intro a
  induction a with
  | nil =>
    intro b h _
    have hb : b = [] := by simpa using h.symm
    rw [hb]
    rfl
  | cons r a ih =>
    intro b h hn
    cases b with
    | nil => simp at h
    | cons t b =>
      rw [List.map_cons, List.map_cons] at h
      injection h with h1 h2
      have hkey : statKey t = statKey r := h1.symm
      have hnotin : statKey r ∉ a.map statKey := (List.nodup_cons.mp hn).1
      have hn2 : (a.map statKey).Nodup := (List.nodup_cons.mp hn).2
      rw [List.zipWith_cons_cons]
      unfold innerJoinStat
      rw [List.flatMap_cons]
      have hpt : (t.date == r.date && t.symbol == r.symbol) = true :=
        (joinPred_iff r t).mpr hkey
      have hfilb : b.filter (fun u => u.date == r.date && u.symbol == r.symbol) = [] := by
        apply List.filter_eq_nil_iff.mpr
        intro u hu hc
        apply hnotin
        rw [← (joinPred_iff r u).mp hc, h2]
        exact List.mem_map.mpr ⟨u, hu, rfl⟩
      have hrest : a.flatMap (fun r2 => ((t :: b).filter
          (fun u => u.date == r2.date && u.symbol == r2.symbol)).map
          (fun u => StatRow.mk r2.date r2.symbol (r2.vals ++ u.vals))) =
          innerJoinStat a b := by
        unfold innerJoinStat
        apply List.flatMap_congr
        intro r2 hr2
        have hneq : ¬((t.date == r2.date && t.symbol == r2.symbol) = true) := by
          intro hc
          apply hnotin
          rw [show statKey r = statKey r2 from hkey.symm.trans ((joinPred_iff r2 t).mp hc)]
          exact List.mem_map.mpr ⟨r2, hr2, rfl⟩
        rw [List.filter_cons, if_neg hneq]
      rw [List.filter_cons, if_pos hpt, hfilb, hrest, ih b h2 hn2]
      rfl

theorem zip_group_combine (f : ℕ → List K → List (Option K))
    (hf : ∀ w cs, (f w cs).length = cs.length) (ws : List ℕ) (w : ℕ)
    (p : String × List (PriceRow K)) :
    List.zipWith (fun r t => StatRow.mk r.date r.symbol (r.vals ++ t.vals))
      (List.zipWith (fun r vs => StatRow.mk r.date p.1 vs) p.2
        (multiSeriesVals f ws (p.2.map (·.close))))
      (List.zipWith (fun r vs => StatRow.mk r.date p.1 vs) p.2
        (multiSeriesVals f [w] (p.2.map (·.close)))) =
    List.zipWith (fun r vs => StatRow.mk r.date p.1 vs) p.2
      (multiSeriesVals f (ws ++ [w]) (p.2.map (·.close))) := by
  apply List.ext_get?
  intro n
  rw [List.get?_eq_getElem?, List.get?_eq_getElem?]
  cases hn : p.2[n]? with
  | none => simp [List.getElem?_zipWith, hn]
  | some r =>
    have hlt : n < p.2.length := by
      by_contra hc
      rw [List.getElem?_eq_none (by omega)] at hn
      cases hn
    have hlt2 : n < (p.2.map (·.close)).length := by simpa using hlt
    rw [List.getElem?_zipWith, List.getElem?_zipWith, List.getElem?_zipWith,
      List.getElem?_zipWith, hn, multiSeriesVals_getElem f ws _ n hlt2,
      multiSeriesVals_getElem f [w] _ n hlt2,
      multiSeriesVals_getElem f (ws ++ [w]) _ n hlt2]
    simp [List.map_append]

theorem statFrame_eq_multi (f : ℕ → List K → List (Option K))
    (hf : ∀ w cs, (f w cs).length = cs.length) (w : ℕ) (s : List (PriceRow K)) :
    statFrame f w s = multiFrame f [w] s := by
  unfold statFrame multiFrame
  apply List.flatMap_congr
  intro p _
  apply List.ext_get?
  intro n
  rw [List.get?_eq_getElem?, List.get?_eq_getElem?]
  cases hn : p.2[n]? with
  | none => simp [List.getElem?_zipWith, hn]
  | some r =>
    have hlt : n < p.2.length := by
      by_contra hc
      rw [List.getElem?_eq_none (by omega)] at hn
      cases hn
    have hlt2 : n < (p.2.map (·.close)).length := by simpa using hlt
    have hlt3 : n < (f w (p.2.map (·.close))).length := by
      rw [hf]
      exact hlt2
    rw [List.getElem?_zipWith, List.getElem?_zipWith, hn,
      multiSeriesVals_getElem f [w] _ n hlt2,
      List.getElem?_eq_getElem hlt3]
    simp [List.getD_eq_getElem?_getD, List.getElem?_eq_getElem hlt3]

theorem innerJoin_multi_step (f : ℕ → List K → List (Option K))
    (hf : ∀ w cs, (f w cs).length = cs.length) (ws : List ℕ) (w : ℕ)
    (s : List (PriceRow K)) (hkn : (s.map priceKey).Nodup) :
    innerJoinStat (multiFrame f ws s) (statFrame f w s) =
      multiFrame f (ws ++ [w]) s := by
  have hsf := statFrame_eq_multi f hf w s
  have heq : (multiFrame f ws s).map statKey = (statFrame f w s).map statKey := by
    rw [hsf, multiFrame_map_statKey, multiFrame_map_statKey]
  have hnd : ((multiFrame f ws s).map statKey).Nodup :=
    ((multiFrame_keys_perm f ws s).nodup_iff).mpr hkn
  rw [innerJoinStat_aligned _ _ heq hnd, hsf]
  unfold multiFrame
  rw [zipWith_flatMap_fuse _ _ _ _ (by
    intro p _
    simp [List.length_zipWith, multiSeriesVals])]
  apply List.flatMap_congr
  intro p _
  exact zip_group_combine f hf ws w p

theorem computeWindowed_eq_multi (f : ℕ → List K → List (Option K))
    (hf : ∀ w cs, (f w cs).length = cs.length) (ws : List ℕ)
    (rows : List (PriceRow K)) (hws : ws ≠ [])
    (hkn : ((sortPrice rows).map priceKey).Nodup) :
    computeWindowed f ws rows = multiFrame f ws (sortPrice rows) := by
  cases ws with
  | nil => exact absurd rfl hws
  | cons w rest =>
    have H : ∀ (rest2 : List ℕ) (ws0 : List ℕ),
        (rest2.map (fun w2 => statFrame f w2 (sortPrice rows))).foldl innerJoinStat
          (multiFrame f ws0 (sortPrice rows)) =
        multiFrame f (ws0 ++ rest2) (sortPrice rows) := by
      intro rest2
      induction rest2 with
      | nil => intro ws0; simp
      | cons w2 rest2 ih =>
        intro ws0
        rw [List.map_cons, List.foldl_cons,
          innerJoin_multi_step f hf ws0 w2 _ hkn, ih (ws0 ++ [w2]),
          List.append_assoc]
        rfl
    simp only [computeWindowed]
    rw [statFrame_eq_multi f hf w (sortPrice rows), H rest [w]]
    rfl

end FrameReduction

section LeftJoinLemmas

variable {K : Type} [Field K] {α : Type}

theorem nodup_const_key_len_le_one {β γ : Type} (l : List β) (g : β → γ) (c : γ)
    (hn : (l.map g).Nodup) (hc : ∀ x ∈ l, g x = c) : l.length ≤ 1 := by
  cases l with
  | nil => simp
  | cons a t =>
    cases t with
    | nil => simp
    | cons b t2 =>
      exfalso
      rw [List.map_cons, List.map_cons] at hn
      have h1 := hc a (by simp)
      have h2 := hc b (by simp)
      have h3 := (List.nodup_cons.mp hn).1
      rw [h1, ← h2] at h3
      exact h3 (List.mem_cons_self _ _)

/-- In a statistics frame with unique `(symbol, date)` keys, at most one
row survives filtering to one date and one symbol. -/
theorem statDate_filter_symbol_le_one (T : List (StatRow K))
    (hT : (T.map statKey).Nodup) (L : ℤ) (sym : String) :
    ((T.filter (fun t => t.date == L)).filter (fun t => t.symbol == sym)).length ≤ 1 := by
  apply nodup_const_key_len_le_one _ statKey (sym, L)
  · exact List.Nodup.sublist
      (List.Sublist.map statKey
        ((List.filter_sublist _).trans (List.filter_sublist _))) hT
  · intro x hx
    have h1 := List.mem_filter.mp hx
    have h2 := List.mem_filter.mp h1.1
    have hs : x.symbol = sym := by simpa using h1.2
    have hd : x.date = L := by simpa using h2.2
    rw [statKey, hs, hd]

/-- When the right frame has at most one row per symbol, the first left
join keeps exactly the signal rows, in order. -/
theorem leftJoinRv_map_fst (T : List (StatRow K))
    (hT : ∀ sym, (T.filter (fun t => t.symbol == sym)).length ≤ 1) :
    ∀ S : List (SignalRow α), (leftJoinRv S T).map (fun r => r.1) = S := by
  intro S
  induction S with
  | nil => rfl
  | cons s S ih =>
    unfold leftJoinRv at ih ⊢
    rw [List.flatMap_cons, List.map_append, ih]
    dsimp only
    cases hq : T.filter (fun t => t.symbol == s.symbol) with
    | nil => rfl
    | cons t l =>
      have h1 := hT s.symbol
      rw [hq] at h1
      have hl : l = [] := by
        cases l with
        | nil => rfl
        | cons b l2 =>
          simp only [List.length_cons] at h1
          omega
      subst hl
      rfl

/-- When the right frame has at most one row per symbol, the second left
join keeps exactly the once-joined rows, in order. -/
theorem leftJoinMom_map_fst (T : List (StatRow K))
    (hT : ∀ sym, (T.filter (fun t => t.symbol == sym)).length ≤ 1) :
    ∀ m : List (SignalRow α × Option (List (Option K))),
      (leftJoinMom m T).map (fun r => r.1) = m := by
  intro m
  induction m with
  | nil => rfl
  | cons p m ih =>
    unfold leftJoinMom at ih ⊢
    rw [List.flatMap_cons, List.map_append, ih]
    dsimp only
    cases hq : T.filter (fun t => t.symbol == p.1.symbol) with
    | nil => rfl
    | cons t l =>
      have h1 := hT p.1.symbol
      rw [hq] at h1
      have hl : l = [] := by
        cases l with
        | nil => rfl
        | cons b l2 =>
          simp only [List.length_cons] at h1
          omega
      subst hl
      rfl

/-- A first-join row keeps its signal row from the batch, and a row whose
symbol is absent from the right frame carries a missing value column. -/
theorem mem_leftJoinRv {S : List (SignalRow α)} {T : List (StatRow K)}
    {r : SignalRow α × Option (List (Option K))} (h : r ∈ leftJoinRv S T) :
    r.1 ∈ S ∧ (r.1.symbol ∉ T.map (fun t => t.symbol) → r.2 = none) := by
  unfold leftJoinRv at h
  obtain ⟨s, hs, hr⟩ := List.mem_flatMap.mp h
  dsimp only at hr
  cases hq : T.filter (fun t => t.symbol == s.symbol) with
  | nil =>
    rw [hq] at hr
    have hre : r = (s, none) := by simpa using hr
    rw [hre]
    exact ⟨hs, fun _ => rfl⟩
  | cons t l =>
    rw [hq] at hr
    have hr2 : r ∈ (t :: l).map (fun t => (s, some t.vals)) := by simpa using hr
    obtain ⟨u, hu, hue⟩ := List.mem_map.mp hr2
    have hu2 : u ∈ T.filter (fun t => t.symbol == s.symbol) := by
      rw [hq]
      exact hu
    have hu3 := List.mem_filter.mp hu2
    have husym : u.symbol = s.symbol := by simpa using hu3.2
    refine ⟨?_, ?_⟩
    · rw [← hue]
      exact hs
    · intro hnot
      exfalso
      apply hnot
      rw [← hue]
      exact List.mem_map.mpr ⟨u, hu3.1, husym⟩

/-- A second-join row keeps its once-joined row, and a row whose symbol is
absent from the right frame carries a missing value column. -/
theorem mem_leftJoinMom {m : List (SignalRow α × Option (List (Option K)))}
    {T : List (StatRow K)}
    {r : (SignalRow α × Option (List (Option K))) × Option (List (Option K))}
    (h : r ∈ leftJoinMom m T) :
    r.1 ∈ m ∧ (r.1.1.symbol ∉ T.map (fun t => t.symbol) → r.2 = none) := by
  unfold leftJoinMom at h
  obtain ⟨p, hp, hr⟩ := List.mem_flatMap.mp h
  dsimp only at hr
  cases hq : T.filter (fun t => t.symbol == p.1.symbol) with
  | nil =>
    rw [hq] at hr
    have hre : r = (p, none) := by simpa using hr
    rw [hre]
    exact ⟨hp, fun _ => rfl⟩
  | cons t l =>
    rw [hq] at hr
    have hr2 : r ∈ (t :: l).map (fun t => (p, some t.vals)) := by simpa using hr
    obtain ⟨u, hu, hue⟩ := List.mem_map.mp hr2
    have hu2 : u ∈ T.filter (fun t => t.symbol == p.1.symbol) := by
      rw [hq]
      exact hu
    have hu3 := List.mem_filter.mp hu2
    have husym : u.symbol = p.1.symbol := by simpa using hu3.2
    refine ⟨?_, ?_⟩
    · rw [← hue]
      exact hp
    · intro hnot
      exfalso
      apply hnot
      rw [← hue]
      exact List.mem_map.mpr ⟨u, hu3.1, husym⟩

/-- Every early-return path hands back the untouched signal batch. -/
theorem mergeSignals_inl_eq (rlog rsqrt : K → K) (cfg : AnalyzerCfg)
    (S : List (SignalRow α)) (P : List (PriceRow K)) (X : List (SignalRow α))
    (h : mergeSignals rlog rsqrt cfg S P = .ok (.inl X)) : X = S := by
  simp only [mergeSignals] at h
  by_cases h0 : (S.isEmpty = true ∨ P.isEmpty = true)
  · rw [if_pos h0] at h
    exact (Sum.inl.inj (Except.ok.inj h)).symm
  rw [if_neg h0] at h
  by_cases h1 : (P.filter (fun r => r.date ≤ runDateOf S)).isEmpty = true
  · rw [if_pos h1] at h
    exact (Sum.inl.inj (Except.ok.inj h)).symm
  rw [if_neg h1] at h
  obtain ⟨avail, hav⟩ : ∃ x, (if (computeRealizedVol rlog rsqrt
      cfg.realized_vol_windows
      (P.filter (fun r => r.date ≤ runDateOf S))).isEmpty = true then []
      else uniqDates ((computeRealizedVol rlog rsqrt cfg.realized_vol_windows
        (P.filter (fun r => r.date ≤ runDateOf S))).map (fun t => t.date))) = x :=
    ⟨_, rfl⟩
  rw [hav] at h
  cases avail with
  | nil =>
    dsimp only at h
    exact (Sum.inl.inj (Except.ok.inj h)).symm
  | cons d0 rest =>
    cases rest with
    | cons d1 rest2 => simp at h
    | nil =>
      dsimp only at h
      by_cases hz : d0 = 0
      · rw [if_pos hz] at h
        exact (Sum.inl.inj (Except.ok.inj h)).symm
      · rw [if_neg hz] at h
        exact Sum.noConfusion (Except.ok.inj h)

/-- When the merge reaches the join stage on a key-unique price table, the
output carries the signal rows one-to-one in order, and a signal symbol
absent from the price table gets missing statistics columns. -/
theorem mergeSignals_inr_strong (rlog rsqrt : K → K) (cfg : AnalyzerCfg)
    (S : List (SignalRow α)) (P : List (PriceRow K))
    (hkn : (P.map priceKey).Nodup)
    (rows : List ((SignalRow α × Option (List (Option K))) × Option (List (Option K))))
    (h : mergeSignals rlog rsqrt cfg S P = .ok (.inr rows)) :
    rows.map (fun r => r.1.1) = S ∧
    ∀ r ∈ rows, r.1.1.symbol ∉ P.map (fun x => x.symbol) →
      r.1.2 = none ∧ r.2 = none := by
  simp only [mergeSignals] at h
  by_cases h0 : (S.isEmpty = true ∨ P.isEmpty = true)
  · rw [if_pos h0] at h
    exact Sum.noConfusion (Except.ok.inj h)
  rw [if_neg h0] at h
  by_cases h1 : (P.filter (fun r => r.date ≤ runDateOf S)).isEmpty = true
  · rw [if_pos h1] at h
    exact Sum.noConfusion (Except.ok.inj h)
  rw [if_neg h1] at h
  obtain ⟨hist, hhist⟩ : ∃ x, P.filter (fun r => r.date ≤ runDateOf S) = x := ⟨_, rfl⟩
  rw [hhist] at h h1
  obtain ⟨rv, hrveq⟩ : ∃ x,
      computeRealizedVol rlog rsqrt cfg.realized_vol_windows hist = x := ⟨_, rfl⟩
  rw [hrveq] at h
  obtain ⟨avail, hav⟩ : ∃ x,
      (if rv.isEmpty = true then [] else uniqDates (rv.map (fun t => t.date))) = x :=
    ⟨_, rfl⟩
  rw [hav] at h
  have hshape : ∃ d0, avail = [d0] ∧ ¬(d0 = 0) := by
    cases avail with
    | nil => simp at h
    | cons d0 rest =>
      cases rest with
      | cons d1 rest2 => simp at h
      | nil =>
        dsimp only at h
        by_cases hz : d0 = 0
        · rw [if_pos hz] at h
          exact Sum.noConfusion (Except.ok.inj h)
        · exact ⟨d0, rfl, hz⟩
  obtain ⟨d0, havd, hz⟩ := hshape
  subst havd
  dsimp only at h
  rw [if_neg hz] at h
  obtain ⟨L, hLdef⟩ : ∃ x, listMax [d0] = x := ⟨_, rfl⟩
  rw [hLdef] at h
  obtain ⟨rvT, hrvTdef⟩ : ∃ x, rv.filter (fun t => t.date == L) = x := ⟨_, rfl⟩
  rw [hrvTdef] at h
  obtain ⟨momv, hmomdef⟩ : ∃ x, computeMomentum cfg.momentum_windows hist = x := ⟨_, rfl⟩
  rw [hmomdef] at h
  obtain ⟨momT, hmomTdef⟩ : ∃ x, momv.filter (fun t => t.date == L) = x := ⟨_, rfl⟩
  rw [hmomTdef] at h
  injection h with h2
  injection h2 with hrows
  subst hrows
  have hkh : (hist.map priceKey).Nodup := by
    rw [← hhist]
    exact List.Nodup.sublist (List.Sublist.map priceKey (List.filter_sublist P)) hkn
  have hks : ((sortPrice hist).map priceKey).Nodup :=
    (((List.perm_insertionSort rowLe hist).map priceKey).nodup_iff).mpr hkh
  have hrvne : ¬(rv.isEmpty = true) := by
    intro hc
    rw [if_pos hc] at hav
    cases hav
  have hwsne : cfg.realized_vol_windows ≠ [] := by
    intro hc
    apply hrvne
    rw [← hrveq, hc]
    rfl
  have hrvmulti : rv = multiFrame (realizedVolSeries rlog rsqrt)
      cfg.realized_vol_windows (sortPrice hist) :=
    hrveq.symm.trans (computeWindowed_eq_multi (realizedVolSeries rlog rsqrt)
      (fun w cs => realizedVolSeries_length rlog rsqrt w cs)
      cfg.realized_vol_windows hist hwsne hks)
  have hrvknd : (rv.map statKey).Nodup := by
    rw [hrvmulti]
    exact ((multiFrame_keys_perm (realizedVolSeries rlog rsqrt)
      cfg.realized_vol_windows (sortPrice hist)).nodup_iff).mpr hks
  have hrvu : ∀ sym, (rvT.filter (fun t => t.symbol == sym)).length ≤ 1 := by
    intro sym
    rw [← hrvTdef]
    exact statDate_filter_symbol_le_one rv hrvknd L sym
  have hrvsym : ∀ t ∈ rvT, t.symbol ∈ P.map (fun x => x.symbol) := by
    intro t ht
    rw [← hrvTdef] at ht
    have ht2 : t ∈ rv := (List.mem_filter.mp ht).1
    rw [← hrveq] at ht2
    obtain ⟨r, hr, hsym, _⟩ := computeWindowed_key_mem (realizedVolSeries rlog rsqrt)
      cfg.realized_vol_windows hist t ht2
    rw [← hhist] at hr
    exact List.mem_map.mpr ⟨r, (List.mem_filter.mp hr).1, hsym⟩
  by_cases hm2 : momT.isEmpty = true
  · rw [if_pos hm2]
    by_cases hm1 : rvT.isEmpty = true
    · rw [if_pos hm1]
      constructor
      · rw [List.map_map, List.map_map]
        exact (List.map_congr_left fun s _ => rfl).trans (List.map_id S)
      · intro r hr hu
        obtain ⟨p, hp, hpe⟩ := List.mem_map.mp hr
        obtain ⟨s, hs, hse⟩ := List.mem_map.mp hp
        rw [← hpe, ← hse]
        exact ⟨rfl, rfl⟩
    · rw [if_neg hm1]
      constructor
      · rw [List.map_map]
        show (leftJoinRv S rvT).map (fun r => r.1) = S
        exact leftJoinRv_map_fst rvT hrvu S
      · intro r hr hu
        obtain ⟨p, hp, hpe⟩ := List.mem_map.mp hr
        have hm := mem_leftJoinRv hp
        have hnot : p.1.symbol ∉ rvT.map (fun t => t.symbol) := by
          intro hc
          obtain ⟨t, ht, hte⟩ := List.mem_map.mp hc
          apply hu
          rw [← hpe]
          exact hte ▸ hrvsym t ht
        rw [← hpe]
        exact ⟨hm.2 hnot, rfl⟩
  · -- the momentum frame at the selected date is nonempty
    have hmomne : momv ≠ [] := by
      intro hc
      apply hm2
      rw [← hmomTdef, hc]
      rfl
    have hmws : cfg.momentum_windows ≠ [] := by
      intro hc
      apply hmomne
      rw [← hmomdef, hc]
      rfl
    have hmommulti : momv = multiFrame momentumSeries
        cfg.momentum_windows (sortPrice hist) :=
      hmomdef.symm.trans (computeWindowed_eq_multi momentumSeries
        (fun w cs => momentumSeries_length w cs) cfg.momentum_windows hist hmws hks)
    have hmomknd : (momv.map statKey).Nodup := by
      rw [hmommulti]
      exact ((multiFrame_keys_perm momentumSeries
        cfg.momentum_windows (sortPrice hist)).nodup_iff).mpr hks
    have hmomu : ∀ sym, (momT.filter (fun t => t.symbol == sym)).length ≤ 1 := by
      intro sym
      rw [← hmomTdef]
      exact statDate_filter_symbol_le_one momv hmomknd L sym
    have hmomsym : ∀ t ∈ momT, t.symbol ∈ P.map (fun x => x.symbol) := by
      intro t ht
      rw [← hmomTdef] at ht
      have ht2 : t ∈ momv := (List.mem_filter.mp ht).1
      rw [← hmomdef] at ht2
      obtain ⟨r, hr, hsym, _⟩ := computeWindowed_key_mem momentumSeries
        cfg.momentum_windows hist t ht2
      rw [← hhist] at hr
      exact List.mem_map.mpr ⟨r, (List.mem_filter.mp hr).1, hsym⟩
    rw [if_neg hm2]
    by_cases hm1 : rvT.isEmpty = true
    · rw [if_pos hm1]
      constructor
      · have h14 := leftJoinMom_map_fst momT hmomu
          (S.map (fun s => (s, (none : Option (List (Option K))))))
        have hcomp : (fun (r : (SignalRow α × Option (List (Option K))) ×
            Option (List (Option K))) => r.1.1) =
            (fun (p : SignalRow α × Option (List (Option K))) => p.1) ∘
              (fun r => r.1) := rfl
        rw [hcomp, ← List.map_map, h14]
        rw [List.map_map]
        exact (List.map_congr_left fun s _ => rfl).trans (List.map_id S)
      · intro r hr hu
        have hm := mem_leftJoinMom hr
        have hnotm : r.1.1.symbol ∉ momT.map (fun t => t.symbol) := by
          intro hc
          obtain ⟨t, ht, hte⟩ := List.mem_map.mp hc
          exact hu (hte ▸ hmomsym t ht)
        refine ⟨?_, hm.2 hnotm⟩
        obtain ⟨s, hs, hse⟩ := List.mem_map.mp hm.1
        rw [← hse]
    · rw [if_neg hm1]
      constructor
      · have h14 := leftJoinMom_map_fst momT hmomu (leftJoinRv S rvT)
        have hcomp : (fun (r : (SignalRow α × Option (List (Option K))) ×
            Option (List (Option K))) => r.1.1) =
            (fun (p : SignalRow α × Option (List (Option K))) => p.1) ∘
              (fun r => r.1) := rfl
        rw [hcomp, ← List.map_map, h14]
        exact leftJoinRv_map_fst rvT hrvu S
      · intro r hr hu
        have hm := mem_leftJoinMom hr
        have hnotm : r.1.1.symbol ∉ momT.map (fun t => t.symbol) := by
          intro hc
          obtain ⟨t, ht, hte⟩ := List.mem_map.mp hc
          exact hu (hte ▸ hmomsym t ht)
        refine ⟨?_, hm.2 hnotm⟩
        have hmr := mem_leftJoinRv hm.1
        have hnotr : r.1.1.symbol ∉ rvT.map (fun t => t.symbol) := by
          intro hc
          obtain ⟨t, ht, hte⟩ := List.mem_map.mp hc
          exact hu (hte ▸ hrvsym t ht)
        exact hmr.2 hnotr

end LeftJoinLemmas

/-- C1 (amended): on a price table with unique `(symbol, date)` keys (the
data model's shape), whenever `merge_signals` completes without raising,
it obeys the left-join law — the signal rows of the output are exactly
the input batch, one output row per input row in order, and a signal row
whose symbol never occurs in the price table is kept, carrying missing
realized-vol and momentum columns rather than being dropped.  Completion
is not guaranteed: a filtered history whose statistics span two or more
distinct dates makes line 110 raise `ValueError` (see the
counterexample). -/
theorem merge_signals_left_join_law {K : Type} [Field K] {α : Type}
    (rlog rsqrt : K → K) (cfg : AnalyzerCfg) (S : List (SignalRow α))
    (P : List (PriceRow K)) (hkn : (P.map priceKey).Nodup) :
    (∀ res, mergeSignals rlog rsqrt cfg S P = .ok res → outSignals res = S) ∧
    ∀ rows, mergeSignals rlog rsqrt cfg S P = .ok (.inr rows) →
      ∀ r ∈ rows, r.1.1.symbol ∉ P.map (fun x => x.symbol) →
        r.1.2 = none ∧ r.2 = none := by
  constructor
  · intro res hres
    cases res with
    | inl X => exact mergeSignals_inl_eq rlog rsqrt cfg S P X hres
    | inr rows => exact (mergeSignals_inr_strong rlog rsqrt cfg S P hkn rows hres).1
  · intro rows hM
    exact (mergeSignals_inr_strong rlog rsqrt cfg S P hkn rows hM).2

/-- Witness for C1: a one-signal batch against a one-row key-unique price
table (a single statistics date, so the merge completes). -/
theorem merge_signals_left_join_law_witness :
    (([(⟨"A", 4, 1⟩ : PriceRow ℚ)]).map priceKey).Nodup ∧
    ((∀ res, mergeSignals (id : ℚ → ℚ) id defaultCfg
        [(⟨5, "A", 0⟩ : SignalRow ℕ)] [⟨"A", 4, 1⟩] = .ok res →
        outSignals res = [⟨5, "A", 0⟩]) ∧
      ∀ rows, mergeSignals (id : ℚ → ℚ) id defaultCfg
          [(⟨5, "A", 0⟩ : SignalRow ℕ)] [⟨"A", 4, 1⟩] = .ok (.inr rows) →
        ∀ r ∈ rows,
          r.1.1.symbol ∉ ([(⟨"A", 4, 1⟩ : PriceRow ℚ)]).map (fun x => x.symbol) →
          r.1.2 = none ∧ r.2 = none) :=
  have hnd : (([(⟨"A", 4, 1⟩ : PriceRow ℚ)]).map priceKey).Nodup := by simp
  ⟨hnd, merge_signals_left_join_law id id defaultCfg _ _ hnd⟩

/-- C1 counterexample: a non-empty batch and a non-empty, key-unique
price history carrying two distinct dates at or before the run date make
`merge_signals` raise — `available_dates` has two elements, so the truth
test `if available_dates:` at analyzer.py line 110 raises `ValueError` —
and no row-preserving table is returned at all. -/
theorem merge_signals_multi_date_crash_cex :
    ((([⟨"A", 3, 1⟩, ⟨"A", 4, 1⟩] : List (PriceRow ℚ)).map priceKey).Nodup ∧
      ([(⟨5, "A", 0⟩ : SignalRow ℕ)] ≠ [] ∧
        ([⟨"A", 3, 1⟩, ⟨"A", 4, 1⟩] : List (PriceRow ℚ)) ≠ [])) ∧
    mergeSignals (id : ℚ → ℚ) id defaultCfg [(⟨5, "A", 0⟩ : SignalRow ℕ)]
        [⟨"A", 3, 1⟩, ⟨"A", 4, 1⟩] =
      .error "ValueError: The truth value of an array with more than one element is ambiguous. Use a.any() or a.all()" :=
  ⟨⟨by decide, by decide, by decide⟩, rfl⟩

section SeriesEval

variable {K : Type} [Field K]

/-- The log-return column is missing at the head of the series (the
`pct_change` of the first observation is `NaN`). -/
theorem logRetSeries_getD_zero (rlog : K → K) (cs : List K) :
    (logRetSeries rlog cs).getD 0 none = none := by
  cases cs with
  | nil => rfl
  | cons c t =>
    rw [logRetSeries, pctChange, List.getD_eq_getElem?_getD, List.getElem?_map,
      List.getElem?_map, List.getElem?_range (by simp)]
    rfl

/-- At an interior position the log-return column carries
`log(1 + pct_change)` of the closes. -/
theorem logRetSeries_getD_pos (rlog : K → K) (cs : List K) (p : ℕ)
    (hp : 1 ≤ p) (hplen : p < cs.length) :
    (logRetSeries rlog cs).getD p none =
      some (rlog (1 + (cs.getD p 0 / cs.getD (p - 1) 0 - 1))) := by
  rw [logRetSeries, pctChange, List.getD_eq_getElem?_getD, List.getElem?_map,
    List.getElem?_map, List.getElem?_range hplen]
  show (Option.map (Option.map fun r => rlog (1 + r))
      (some (if p = 0 then none
        else some (cs.getD p 0 / cs.getD (p - 1) 0 - 1)))).getD none = _
  rw [if_neg (show ¬(p = 0) from by omega)]
  rfl

theorem allSome_map_some : ∀ l : List K, allSome (l.map some) = some l := by
  intro l
  induction l with
  | nil => rfl
  | cons a t ih =>
    rw [List.map_cons]
    show (allSome (t.map some)).map (fun l => a :: l) = some (a :: t)
    rw [ih]
    rfl

/-- Pointwise value of one symbol's realized-vol column: missing on the
first `w` observations, then the annualized sample standard deviation of
the trailing `w` log returns. -/
theorem rvSeries_getD (rlog rsqrt : K → K) (w : ℕ) (hw : 2 ≤ w) (cs : List K)
    (i : ℕ) (hi : i < cs.length) :
    (realizedVolSeries rlog rsqrt w cs).getD i none =
      if i < w then none
      else some (rsqrt (stdArg (specLogReturns rlog cs i w)) * rsqrt 252) := by
  have hxl : (logRetSeries rlog cs).length = cs.length := logRetSeries_length rlog cs
  rw [realizedVolSeries, rollingStd, List.getD_eq_getElem?_getD, List.getElem?_map,
    List.getElem?_map, List.getElem?_range (by rw [hxl]; exact hi)]
  show Option.map (fun s => s * rsqrt 252)
      (if i + 1 < w then none
       else (allSome ((List.range w).map (fun j =>
         (logRetSeries rlog cs).getD (i + 1 - w + j) none))).bind (sampleStd rsqrt)) = _
  by_cases hc : i + 1 < w
  · rw [if_pos hc, if_pos (by omega)]
    rfl
  · rw [if_neg hc]
    by_cases hc2 : i < w
    · rw [if_pos hc2]
      obtain ⟨w2, hw2⟩ : ∃ w2, w = w2 + 1 := ⟨w - 1, by omega⟩
      subst hw2
      rw [List.range_succ_eq_map]
      simp only [List.map_cons]
      rw [show i + 1 - (w2 + 1) + 0 = 0 from by omega, logRetSeries_getD_zero]
      rfl
    · rw [if_neg hc2]
      have hwle : w ≤ i := by omega
      have hmap : (List.range w).map (fun j =>
          (logRetSeries rlog cs).getD (i + 1 - w + j) none) =
          (specLogReturns rlog cs i w).map some := by
        rw [specLogReturns, List.map_map]
        apply List.map_congr_left
        intro j hj
        have hjw : j < w := List.mem_range.mp hj
        have hp1 : 1 ≤ i + 1 - w + j := by omega
        have hp2 : i + 1 - w + j < cs.length := by omega
        show (logRetSeries rlog cs).getD (i + 1 - w + j) none =
          some (rlog (cs.getD (i + 1 - w + j) 0 / cs.getD (i - w + j) 0))
        rw [logRetSeries_getD_pos rlog cs (i + 1 - w + j) hp1 hp2,
          show i + 1 - w + j - 1 = i - w + j from by omega]
        exact congrArg some (congrArg rlog (by ring))
      rw [hmap, allSome_map_some]
      show Option.map (fun s => s * rsqrt 252)
        (sampleStd rsqrt (specLogReturns rlog cs i w)) = _
      rw [sampleStd, if_neg (by
        rw [show (specLogReturns rlog cs i w).length = w from by
          rw [specLogReturns]; simp]
        omega)]
      rfl

end SeriesEval

/-- C2 counterexample: with window `w = 2` on a three-observation series,
the realized-vol column is still missing at index `1 = w − 1`, where the
spec's "first `w − 1` observations are undefined" would have it defined,
and it is first defined at index `2 = w`: each symbol's series starts with
`w` missing values, not `w − 1`. -/
theorem realized_vol_first_window_cex :
    (realizedVolSeries Real.log Real.sqrt 2 [(1 : ℝ), 1, 1]).getD 1 none = none ∧
    (realizedVolSeries Real.log Real.sqrt 2 [(1 : ℝ), 1, 1]).getD 2 none ≠ none :=
  ⟨rfl, fun h => Option.noConfusion h⟩

/-- C2 (amended): on a price table sorted ascending by `(symbol, date)`
with unique keys, `compute_realized_vol` computes per symbol the
annualized sample standard deviation of the trailing `w` log returns
`r_t = ln(close_t / close_{t-1})` — but the first `w` observations of each
symbol (not `w − 1`) are missing, every observation from index `w` on
being defined. -/
theorem compute_realized_vol_spec_values {K : Type} [Field K] (rlog rsqrt : K → K)
    (ws : List ℕ) (table : List (PriceRow K)) (hws : ws ≠ [])
    (hw2 : ∀ w ∈ ws, 2 ≤ w) (hsorted : List.Pairwise rowLt table) :
    computeRealizedVol rlog rsqrt ws table = specRealizedVolTable rlog rsqrt ws table := by
  have hle : List.Pairwise rowLe table :=
    hsorted.imp (fun hab => Or.imp_right (fun hx => ⟨hx.1, le_of_lt hx.2⟩) hab)
  have hsid : sortPrice table = table := List.Sorted.insertionSort_eq hle
  have hknp : (table.map priceKey).Nodup := by
    refine List.Pairwise.map priceKey (fun a b hab heq => ?_) hsorted
    have hsy : a.symbol = b.symbol := congrArg Prod.fst heq
    have hdt : a.date = b.date := congrArg Prod.snd heq
    rcases hab with hlt | hx
    · rw [hsy] at hlt
      exact lt_irrefl _ hlt
    · rw [hdt] at hx
      exact lt_irrefl _ hx.2
  have hkn2 : ((sortPrice table).map priceKey).Nodup := by
    rw [hsid]
    exact hknp
  have heq1 : computeRealizedVol rlog rsqrt ws table =
      multiFrame (realizedVolSeries rlog rsqrt) ws (sortPrice table) :=
    computeWindowed_eq_multi (realizedVolSeries rlog rsqrt)
      (fun w cs => realizedVolSeries_length rlog rsqrt w cs) ws table hws hkn2
  rw [heq1, hsid, multiFrame, specRealizedVolTable]
  apply List.flatMap_congr
  intro p hp
  congr 1
  rw [multiSeriesVals]
  have hlen : (p.2.map (fun r => r.close)).length = p.2.length := List.length_map _ _
  rw [hlen]
  apply List.map_congr_left
  intro i hi
  have hi2 : i < p.2.length := List.mem_range.mp hi
  apply List.map_congr_left
  intro w hwm
  have hx := rvSeries_getD rlog rsqrt w (hw2 w hwm) (p.2.map (fun r => r.close)) i
    (by rw [hlen]; exact hi2)
  exact hx

/-- Witness for C2: a three-observation single-symbol table with window 2,
instantiated at the real log and square root. -/
theorem compute_realized_vol_spec_values_witness :
    (([2] : List ℕ) ≠ [] ∧ (∀ w ∈ ([2] : List ℕ), 2 ≤ w) ∧
      List.Pairwise rowLt
        ([⟨"A", 1, 1⟩, ⟨"A", 2, 1⟩, ⟨"A", 3, 1⟩] : List (PriceRow ℝ))) ∧
    computeRealizedVol Real.log Real.sqrt [2]
        ([⟨"A", 1, 1⟩, ⟨"A", 2, 1⟩, ⟨"A", 3, 1⟩] : List (PriceRow ℝ)) =
      specRealizedVolTable Real.log Real.sqrt [2]
        ([⟨"A", 1, 1⟩, ⟨"A", 2, 1⟩, ⟨"A", 3, 1⟩] : List (PriceRow ℝ)) :=
  have h1 : ([2] : List ℕ) ≠ [] := by decide
  have h2 : ∀ w ∈ ([2] : List ℕ), 2 ≤ w := by decide
  have h3 : List.Pairwise rowLt
      ([⟨"A", 1, 1⟩, ⟨"A", 2, 1⟩, ⟨"A", 3, 1⟩] : List (PriceRow ℝ)) := by
    refine List.Pairwise.cons ?_ (List.Pairwise.cons ?_ (List.pairwise_singleton _ _))
    all_goals intro b hb
    all_goals fin_cases hb
    all_goals exact Or.inr ⟨rfl, by norm_num⟩
  ⟨⟨h1, h2, h3⟩, compute_realized_vol_spec_values Real.log Real.sqrt [2] _ h1 h2 h3⟩

end SkewCapture
